import Mathlib

/-!
Verification of the pruner injection-formatting pipeline.

Byte buffers are modelled as `List Nat` (one `Nat` per byte; 10 = LF,
13 = CR, 32 = space, 92 = backslash).  Rust strings are modelled by their
UTF-8 byte sequences; scalar-by-scalar scanning is modelled by consuming
`utf8CharLen` bytes at a time, which agrees with `char::len_utf8` on valid
UTF-8 input.  Fallible Rust code returns `Option`/`Except`.
-/

namespace Pruner

/-- A byte is a newline byte (`\n` or `\r`). -/
def isNlByte (b : Nat) : Bool := b == 10 || b == 13

/-- Byte length of the UTF-8 scalar starting with lead byte `b`
(matches `char::len_utf8` on valid UTF-8; continuation bytes never start
a scalar in valid input). -/
def utf8CharLen (b : Nat) : Nat :=
  if b < 0x80 then 1
  else if b < 0xE0 then 2
  else if b < 0xF0 then 3
  else 4

/-- From `src/api/text.rs` `offset_lines`: the imperative splice loop.
`i` is the cursor; after inserting `offset` spaces at `i+1` the cursor jumps
past the inserted block. -/
def offsetLinesLoop (offset : Nat) (data : List Nat) (i : Nat) : List Nat :=
  if h : i < data.length then
    if data[i] = 10 then
      match data[i+1]? with
      | some b =>
        if b = 10 ∨ b = 13 then
          offsetLinesLoop offset data (i+1)
        else
          offsetLinesLoop offset
            (data.take (i+1) ++ List.replicate offset 32 ++ data.drop (i+1))
            (i + offset + 1)
      | none => offsetLinesLoop offset data (i+1)
    else
      offsetLinesLoop offset data (i+1)
  else
    data
termination_by data.length - i
decreasing_by
  all_goals first
    | omega
    | (simp only [List.length_append, List.length_take, List.length_drop,
        List.length_replicate]
       omega)

/-- From `src/api/text.rs` `offset_lines`: early return on `offset == 0`,
otherwise run the splice loop from index 0. -/
def offset_lines (data : List Nat) (offset : Nat) : List Nat :=
  if offset = 0 then data else offsetLinesLoop offset data 0

/-- Spec-shaped description of `offset_lines` (for the refinement theorem):
after every `\n` whose successor exists and is neither `\n` nor `\r`,
insert `offset` spaces; all original bytes are kept in order. -/
def offsetLinesSpec (offset : Nat) : List Nat → List Nat
  | [] => []
  | b :: rest =>
    if b = 10 then
      match rest with
      | [] => [10]
      | b2 :: _ =>
        if b2 = 10 ∨ b2 = 13 then 10 :: offsetLinesSpec offset rest
        else 10 :: (List.replicate offset 32 ++ offsetLinesSpec offset rest)
    else b :: offsetLinesSpec offset rest

/-- From `src/api/text.rs` `strip_trailing_newlines`: pop all trailing
`\n`/`\r` bytes. -/
def strip_trailing_newlines (data : List Nat) : List Nat :=
  (data.reverse.dropWhile isNlByte).reverse

/-- From `src/api/text.rs` `trailing_newlines`: the maximal suffix of
`\n`/`\r` bytes. -/
def trailing_newlines (data : List Nat) : List Nat :=
  (data.reverse.takeWhile isNlByte).reverse

/-- First index of a `\n` byte, if any (translation of
`iter().position(|b| *b == b'\n')`). -/
def firstIdxNl : List Nat → Option Nat
  | [] => none
  | b :: rest => if b = 10 then some 0 else (firstIdxNl rest).map (· + 1)

/-- Last index of a `\n` byte, if any (translation of
`iter().rposition(|b| *b == b'\n')`). -/
def lastIdxNl (l : List Nat) : Option Nat :=
  (firstIdxNl l.reverse).map (fun j => l.length - 1 - j)

/-- From `src/api/text.rs` `column_for_byte`: distance from the byte after
the preceding `\n` (or from the start) to `min(byte_index, len)`. -/
def column_for_byte (source : List Nat) (byte_index : Nat) : Nat :=
  let target := min byte_index source.length
  match lastIdxNl (source.take target) with
  | some i => target - (i + 1)
  | none => target

/-- `split_inclusive('\n')` on bytes: chunks end with `\n` except possibly
the last; the empty input yields no chunks. -/
def splitInclusiveNl : List Nat → List (List Nat)
  | [] => []
  | 10 :: rest => [10] :: splitInclusiveNl rest
  | b :: rest =>
    match splitInclusiveNl rest with
    | [] => [[b]]
    | chunk :: chunks => (b :: chunk) :: chunks

/-- Code-point value of the UTF-8 sequence at the head of the list.  The
lead byte's payload is `b % 2^(7-len)` and each continuation byte
contributes its low six bits (`c % 64 = c - 0x80` on valid continuation
bytes), so on valid UTF-8 this is exactly the decoded `char`. -/
def decodeCp : List Nat → Nat
  | [] => 0
  | b :: rest =>
    if b < 0x80 then b
    else if b < 0xE0 then (b % 32) * 64 + (rest.headD 0) % 64
    else if b < 0xF0 then
      (b % 16) * 4096 + ((rest.headD 0) % 64) * 64 + ((rest.drop 1).headD 0) % 64
    else
      (b % 8) * 262144 + ((rest.headD 0) % 64) * 4096 +
        (((rest.drop 1).headD 0) % 64) * 64 + ((rest.drop 2).headD 0) % 64

/-- Rust `char::is_whitespace`: the Unicode `White_Space` property
(U+0009–U+000D, U+0020, U+0085, U+00A0, U+1680, U+2000–U+200A, U+2028,
U+2029, U+202F, U+205F, U+3000). -/
def rustIsWhitespace (cp : Nat) : Bool :=
  cp == 9 || cp == 10 || cp == 11 || cp == 12 || cp == 13 || cp == 32 ||
  cp == 0x85 || cp == 0xA0 || cp == 0x1680 ||
  (decide (0x2000 ≤ cp) && decide (cp ≤ 0x200A)) ||
  cp == 0x2028 || cp == 0x2029 || cp == 0x202F || cp == 0x205F || cp == 0x3000

/-- Scalar-stepping scan for `line.trim().is_empty()`: every decoded char
of the line is whitespace.  Fuel is the byte length; each step consumes at
least one byte, so the zero-fuel branch is unreachable from `isBlankLine`. -/
def blankGo : Nat → List Nat → Bool
  | _, [] => true
  | 0, _ :: _ => false
  | fuel + 1, b :: rest =>
    rustIsWhitespace (decodeCp (b :: rest)) &&
      blankGo fuel (rest.drop (utf8CharLen b - 1))

/-- `line.trim().is_empty()` on UTF-8 bytes: the line consists only of
Unicode-whitespace chars. -/
def isBlankLine (line : List Nat) : Bool := blankGo line.length line

/-- One line as produced by Rust `str::lines`: a trailing `\n` is removed
together with a `\r` immediately before it; a bare trailing `\r` (final
line without `\n`) is kept. -/
def stripLineEnd (line : List Nat) : List Nat :=
  if line.getLast? = some 10 then
    let l1 := line.dropLast
    if l1.getLast? = some 13 then l1.dropLast else l1
  else line

/-- Rust `str::lines` on bytes. -/
def rustLines (l : List Nat) : List (List Nat) :=
  (splitInclusiveNl l).map stripLineEnd

/-- Leading ASCII-space count of a line
(`line.chars().take_while(|ch| *ch == ' ').count()`). -/
def leadingSpaces (line : List Nat) : Nat :=
  (line.takeWhile (fun b => b == 32)).length

/-- From `src/api/text.rs` `min_leading_indent`: minimum leading-space count
over non-blank lines, 0 when every line is blank. -/
def min_leading_indent (text : List Nat) : Nat :=
  (((rustLines text).foldl
    (fun (acc : Option Nat) (line : List Nat) =>
      if isBlankLine line then acc
      else some (match acc with
        | none => leadingSpaces line
        | some m => min m (leadingSpaces line)))
    none)).getD 0

/-- From `src/api/text.rs` `strip_leading_indent`: remove up to `indent`
leading spaces from every line, preserving newline segmentation. -/
def strip_leading_indent (text : List Nat) (indent : Nat) : List Nat :=
  if indent = 0 then text
  else
    ((splitInclusiveNl text).map (fun seg =>
      let p := if seg.getLast? = some 10 then (seg.dropLast, [10]) else (seg, ([] : List Nat))
      p.1.drop (min indent (leadingSpaces p.1)) ++ p.2)).flatten

/-- Lexicographic `≤` on byte strings of equal interest
(`Ord` on Rust byte slices restricted to the equal-length case reached by
the sort comparator's tie-break). -/
def lexLe : List Nat → List Nat → Bool
  | [], _ => true
  | _ :: _, [] => false
  | a :: as', b :: bs' =>
    if a < b then true else if b < a then false else lexLe as' bs'

/-- The comparator of `src/api/text.rs` `sort_escape_chars` as a relation:
`a` sorts before `b` iff `a` is longer, or they have equal length and `a`
is lexicographically no greater. -/
def escLt (a b : List Nat) : Prop :=
  b.length < a.length ∨ (a.length = b.length ∧ lexLe a b = true)

instance : DecidableRel escLt := fun a b => by
  unfold escLt; infer_instance

/-- From `src/api/text.rs` `sort_escape_chars`: sort escape strings by
descending byte length, ties broken lexicographically ascending.
(`sort_by` on the comparator `b.len().cmp(&a.len()).then_with(|| a.cmp(b))`.) -/
def sort_escape_chars (escape_chars : List (List Nat)) : List (List Nat) :=
  List.insertionSort escLt escape_chars

/-- The first configured escape string that is a prefix of `l`
(the inner `for escape in &escape_bytes { if starts_with ... }` loop). -/
def findEscape (escapes : List (List Nat)) (l : List Nat) : Option (List Nat) :=
  escapes.find? (fun e => e.isPrefixOf l)

/-- From `src/api/text.rs` `unescape_text`, with explicit fuel (the Rust
loop consumes at least one byte per iteration, so `fuel = length` is
enough; see `unescapeGo_fuel`): `\\` emits `\`; a `\` followed by a
configured escape emits the escape; otherwise one scalar is copied. -/
def unescapeGo (escapes : List (List Nat)) : Nat → List Nat → List Nat
  | 0, _ => []
  | _ + 1, [] => []
  | fuel + 1, b :: rest =>
    if b = 92 then
      if rest.head? = some 92 then 92 :: unescapeGo escapes fuel rest.tail
      else
        match findEscape escapes rest with
        | some e => e ++ unescapeGo escapes fuel (rest.drop e.length)
        | none => 92 :: unescapeGo escapes fuel rest
    else
      (b :: rest.take (utf8CharLen b - 1)) ++
        unescapeGo escapes fuel (rest.drop (utf8CharLen b - 1))

/-- From `src/api/text.rs` `unescape_text`. -/
def unescape_text (escapes : List (List Nat)) (text : List Nat) : List Nat :=
  unescapeGo escapes text.length text

/-- From `src/api/text.rs` `escape_text`, with explicit fuel: `\` is
doubled; at any other position the first matching escape `e` (tried in the
given order) emits `\` ++ `e`; otherwise one scalar is copied.  The Rust
loop fails to advance (and diverges) when an empty escape string matches;
the fuel truncates exactly that divergent case. -/
def escapeGo (escapes : List (List Nat)) : Nat → List Nat → List Nat
  | 0, _ => []
  | _ + 1, [] => []
  | fuel + 1, b :: rest =>
    if b = 92 then 92 :: 92 :: escapeGo escapes fuel rest
    else
      match findEscape escapes (b :: rest) with
      | some e => (92 :: e) ++ escapeGo escapes fuel ((b :: rest).drop e.length)
      | none =>
        (b :: rest.take (utf8CharLen b - 1)) ++
          escapeGo escapes fuel (rest.drop (utf8CharLen b - 1))

/-- From `src/api/text.rs` `escape_text`. -/
def escape_text (escapes : List (List Nat)) (text : List Nat) : List Nat :=
  escapeGo escapes text.length text

/-- `tree_sitter::Point` (zero-based row and byte column). -/
structure TSPoint where
  row : Nat
  column : Nat
deriving DecidableEq, Repr

/-- `tree_sitter::Range`. -/
structure TSRange where
  start_byte : Nat
  end_byte : Nat
  start_point : TSPoint
  end_point : TSPoint
deriving DecidableEq, Repr

/-- From `crates/cli/src/api/directives/offset.rs` `RangeOffset`:
four signed row/column deltas. -/
structure RangeOffset where
  start_row : Int
  start_col : Int
  end_row : Int
  end_col : Int
deriving DecidableEq, Repr

/-- From `crates/cli/src/api/directives/offset.rs` `apply_signed`:
add a signed offset to a `usize`, failing when the result is negative.
(The `isize` conversions cannot overflow in the `Int` model.) -/
def apply_signed (value : Nat) (offset : Int) : Option Nat :=
  let adjusted : Int := (value : Int) + offset
  if adjusted < 0 then none else some adjusted.toNat

/-- From `crates/cli/src/api/directives/offset.rs` `point_to_byte` inner
loop over `split_inclusive('\n')` lines: accumulate byte lengths until the
requested row, then clamp the column to the line length. -/
def pointToByteGo (col : Nat) : List (List Nat) → Nat → Nat → Option Nat
  | [], _, _ => none
  | line :: _, 0, acc => some (acc + min col line.length)
  | line :: rest, row + 1, acc => pointToByteGo col rest row (acc + line.length)

/-- From `crates/cli/src/api/directives/offset.rs` `point_to_byte`. -/
def point_to_byte (source : List Nat) (point : TSPoint) : Option Nat :=
  pointToByteGo point.column (splitInclusiveNl source) point.row 0

/-- From `crates/cli/src/api/directives/offset.rs` `apply_offset_to_range`:
offset both points, then rederive both byte positions; any failure yields
`none`. -/
def apply_offset_to_range (source : List Nat) (range : TSRange)
    (offset : RangeOffset) : Option TSRange := do
  let sr ← apply_signed range.start_point.row offset.start_row
  let sc ← apply_signed range.start_point.column offset.start_col
  let er ← apply_signed range.end_point.row offset.end_row
  let ec ← apply_signed range.end_point.column offset.end_col
  let new_start_byte ← point_to_byte source ⟨sr, sc⟩
  let new_end_byte ← point_to_byte source ⟨er, ec⟩
  pure ⟨new_start_byte, new_end_byte, ⟨sr, sc⟩, ⟨er, ec⟩⟩

/-- Modelled from the spec: the call site of `apply_offset_to_range` inside
the per-capture range computation of `extract_language_injections` is not
under `src` (the copy there still uses an older panicking variant); §4.4
of the spec says a failed recomputation falls back to the capture's base
range. -/
def range_with_offset (source : List Nat) (range : TSRange)
    (offset : RangeOffset) : TSRange :=
  (apply_offset_to_range source range offset).getD range

/-- From `crates/cli/src/api/directives/trim.rs` `TrimSpec`. -/
structure TrimSpec where
  start_linewise : Bool
  start_charwise : Bool
  end_linewise : Bool
  end_charwise : Bool
deriving DecidableEq, Repr

/-- From `crates/cli/src/api/directives/trim.rs` `is_line_whitespace_only`. -/
def is_line_whitespace_only (bytes : List Nat) : Bool :=
  bytes.all (fun b => b == 32 || b == 9 || b == 13)

/-- From `crates/cli/src/api/directives/trim.rs` `trim_start_linewise`:
advance `s` past fully blank lines of `source[s..e]`. -/
def trim_start_linewise (source : List Nat) (s e : Nat) : Nat :=
  if _h : s < e then
    let slice := (source.take e).drop s
    match firstIdxNl slice with
    | none => if is_line_whitespace_only slice then e else s
    | some nl =>
      if is_line_whitespace_only (slice.take nl) then
        trim_start_linewise source (min (s + nl + 1) e) e
      else s
  else s
termination_by e - s
decreasing_by omega

/-- End of the last line of the window `source[s..e]`, excluding an
optional final `\n` (`if slice.last() == Some(&b'\n') { end - 1 } else { end }`
in `trim_end_linewise`). -/
def lineEndOf (source : List Nat) (s e : Nat) : Nat :=
  if ((source.take e).drop s).getLast? = some 10 then e - 1 else e

/-- Start of the last line of the window (`prev_nl.map(|i| start + i + 1)
.unwrap_or(start)` in `trim_end_linewise`). -/
def lineStartOf (source : List Nat) (s e : Nat) : Nat :=
  match lastIdxNl ((source.take (lineEndOf source s e)).drop s) with
  | some i => s + i + 1
  | none => s

/-- From `crates/cli/src/api/directives/trim.rs` `trim_end_linewise`:
repeatedly drop a trailing fully blank line (an optional final `\n` counts
as part of that line). -/
def trim_end_linewise (source : List Nat) (s e : Nat) : Nat :=
  if _h : s < e then
    if is_line_whitespace_only
        ((source.take (lineEndOf source s e)).drop (lineStartOf source s e)) then
      trim_end_linewise source s (lineStartOf source s e)
    else e
  else e
termination_by e - s
decreasing_by
  have hfirst : ∀ (l : List Nat) (i : Nat), firstIdxNl l = some i →
      i < l.length ∧ l[i]? = some 10 := by
    intro l
    induction l with
    | nil => intro i hi; simp [firstIdxNl] at hi
    | cons b rest ih =>
      intro i hi
      by_cases hb : b = 10
      · subst hb
        simp [firstIdxNl] at hi
        subst hi
        simp
      · simp [firstIdxNl, hb] at hi
        obtain ⟨j, hj, rfl⟩ := hi
        obtain ⟨h1, h2⟩ := ih j hj
        exact ⟨by simp only [List.length_cons]; omega, by simpa using h2⟩
  have hlast : ∀ (l : List Nat) (i : Nat), lastIdxNl l = some i →
      i < l.length ∧ l[i]? = some 10 := by
    intro l i hi
    simp only [lastIdxNl, Option.map_eq_some'] at hi
    obtain ⟨j, hj, rfl⟩ := hi
    obtain ⟨h1, h2⟩ := hfirst _ _ hj
    rw [List.length_reverse] at h1
    refine ⟨by omega, ?_⟩
    rw [List.getElem?_eq_getElem (by omega)]
    rw [List.getElem?_eq_getElem (by simpa using h1)] at h2
    rw [List.getElem_reverse] at h2
    simpa [List.length_reverse] using h2
  have key : lineStartOf source s e < e := by
    unfold lineStartOf lineEndOf
    by_cases hl10 : ((source.take e).drop s).getLast? = some 10
    · rw [if_pos hl10]
      cases hm : lastIdxNl ((source.take (e - 1)).drop s) with
      | none => simpa [hm] using _h
      | some i =>
        simp only [hm]
        obtain ⟨h1, _h2⟩ := hlast _ _ hm
        simp only [List.length_drop, List.length_take] at h1
        omega
    · rw [if_neg hl10]
      cases hm : lastIdxNl ((source.take e).drop s) with
      | none => simpa [hm] using _h
      | some i =>
        simp only [hm]
        by_cases hcase : s + i + 1 < e
        · exact hcase
        · exfalso
          obtain ⟨h1, h2⟩ := hlast _ _ hm
          have hlen : ((source.take e).drop s).length = min e source.length - s := by
            simp
          apply hl10
          rw [List.getLast?_eq_getElem?]
          have : ((source.take e).drop s).length - 1 = i := by omega
          rw [this]
          exact h2
  omega

/-- From `crates/cli/src/api/directives/trim.rs` `is_charwise_whitespace`. -/
def is_charwise_whitespace (b : Nat) : Bool :=
  b == 32 || b == 9 || b == 10 || b == 13

/-- From `crates/cli/src/api/directives/trim.rs` `trim_start_charwise`. -/
def trim_start_charwise (source : List Nat) (s e : Nat) : Nat :=
  if _h : s < e then
    if is_charwise_whitespace (source.getD s 0) then
      trim_start_charwise source (s + 1) e
    else s
  else s
termination_by e - s
decreasing_by omega

/-- From `crates/cli/src/api/directives/trim.rs` `trim_end_charwise`. -/
def trim_end_charwise (source : List Nat) (s e : Nat) : Nat :=
  if _h : s < e then
    if is_charwise_whitespace (source.getD (e - 1) 0) then
      trim_end_charwise source s (e - 1)
    else e
  else e
termination_by e - s
decreasing_by omega

/-- From `crates/cli/src/api/directives/trim.rs` `apply_trim`: guard the
window, then apply the enabled start trims followed by the enabled end
trims. -/
def apply_trim (source : List Nat) (start_byte end_byte : Nat)
    (spec : TrimSpec) : Nat × Nat :=
  if start_byte ≥ end_byte ∨ end_byte > source.length then
    (start_byte, end_byte)
  else
    let s1 := if spec.start_linewise then trim_start_linewise source start_byte end_byte else start_byte
    let s2 := if spec.start_charwise then trim_start_charwise source s1 end_byte else s1
    let e1 := if spec.end_linewise then trim_end_linewise source s2 end_byte else end_byte
    let e2 := if spec.end_charwise then trim_end_charwise source s2 e1 else e1
    (s2, e2)

/-- Trailing-indentation loop of
`crates/cli/src/api/directives/indented.rs` `trim_bytes`: pull `e` back
over spaces and tabs, never across a newline. -/
def trimEndSpaces (source : List Nat) (s e : Nat) : Nat :=
  if _h : s < e then
    if (fun b => b == 32 || b == 9) (source.getD (e - 1) 0) then
      trimEndSpaces source s (e - 1)
    else e
  else e
termination_by e - s
decreasing_by omega

/-- From `crates/cli/src/api/directives/indented.rs` `trim_bytes`: drop a
whitespace-only first line (up to and including its `\n`), then drop
trailing spaces/tabs. -/
def trim_bytes (source : List Nat) (start_byte end_byte : Nat) : Nat × Nat :=
  if start_byte ≥ end_byte ∨ end_byte > source.length then
    (start_byte, end_byte)
  else
    let slice := (source.take end_byte).drop start_byte
    let s :=
      match firstIdxNl slice with
      | some nl =>
        if (slice.take nl).all (fun b => b == 32 || b == 9 || b == 13) then
          min (start_byte + nl + 1) end_byte
        else start_byte
      | none => start_byte
    (s, trimEndSpaces source s end_byte)

/-- Byte span of a range, as read by the ignore tracker (only `start_byte`
and `end_byte` of `tree_sitter::Range` are consulted there). -/
structure MRange where
  start_byte : Nat
  end_byte : Nat
deriving DecidableEq, Repr

/-- From `crates/cli/src/api/ignore.rs` `is_ignored`: a range is ignored iff
it is contained (closed on both ends) in some ignored range. -/
def is_ignored (range : MRange) (ignore_ranges : List MRange) : Bool :=
  ignore_ranges.any (fun ig =>
    range.start_byte ≥ ig.start_byte && range.end_byte ≤ ig.end_byte)

/-- One content capture of an injection-query match, after language
resolution and range directives: the inputs of the fragment-grouping stage
of `extract_language_injections` (spec §4.4 steps 5-7). -/
structure MatchInput where
  pattern_index : Nat
  combined : Bool
  lang : String
  container_start : Nat
  container_end : Nat
  start_byte : Nat
  end_byte : Nat
  escape_chars : List (List Nat)
deriving DecidableEq, Repr

/-- Modelled from the spec: `GroupKey` (§3) of the fragment-coalescing
stage, which is not in the `src` snapshot of `extract_language_injections`
(only its tests are): either a fresh counter, or
(pattern_index, lang, container span) under `injection.combined`. -/
inductive GroupKey where
  | single : Nat → GroupKey
  | comb : Nat → String → Nat → Nat → GroupKey
deriving DecidableEq, Repr

/-- Modelled from the spec: `InjectedRegionFragment` (§3). -/
structure Fragment where
  lang : String
  start_byte : Nat
  end_byte : Nat
  escape_chars : List (List Nat)
deriving DecidableEq, Repr

/-- Modelled from the spec: fragment merging (§4.4 step 7) — widen to
[min start, max end] and union the escape-char sets (sets are modelled as
lists up to membership). -/
def mergeFragment (f g : Fragment) : Fragment :=
  ⟨f.lang, min f.start_byte g.start_byte, max f.end_byte g.end_byte,
    f.escape_chars ++ g.escape_chars⟩

/-- Modelled from the spec: upsert of a fragment at its group key
(§4.4 step 7) preserving insertion order. -/
def upsertFragment (acc : List (GroupKey × Fragment)) (k : GroupKey)
    (f : Fragment) : List (GroupKey × Fragment) :=
  if acc.any (fun p => p.1 = k) then
    acc.map (fun p => if p.1 = k then (k, mergeFragment p.2 f) else p)
  else acc ++ [(k, f)]

/-- Modelled from the spec: group-key choice (§4.4 step 6); `idx` is the
fresh monotonic counter value for non-combined matches. -/
def keyFor (idx : Nat) (m : MatchInput) : GroupKey :=
  if m.combined then
    .comb m.pattern_index m.lang m.container_start m.container_end
  else .single idx

/-- The fragment a single content capture contributes. -/
def fragFor (m : MatchInput) : Fragment :=
  ⟨m.lang, m.start_byte, m.end_byte, m.escape_chars⟩

/-- Modelled from the spec: the per-match fragment-accumulation loop
(§4.4 steps 6-7). -/
def collectFragGo (idx : Nat) (acc : List (GroupKey × Fragment)) :
    List MatchInput → List (GroupKey × Fragment)
  | [] => acc
  | m :: ms =>
    collectFragGo (idx + 1) (upsertFragment acc (keyFor idx m) (fragFor m)) ms

/-- An emitted injected region (points are claim-irrelevant here and
omitted; the byte span is what the ignore filter and the merge rules
consult). -/
structure MRegion where
  lang : String
  range : MRange
  escape_chars : List (List Nat)
deriving DecidableEq, Repr

/-- Modelled from the spec: finalization of `extract_language_injections`
(§4.4) — walk fragments in insertion order, emit a region per fragment,
and drop each region that lies inside any ignored range.  The coalescing
and filtering steps are absent from the `src` snapshot (their helpers
`is_ignored` / `collect_ignore_ranges` and their tests are present). -/
def extract_model (ms : List MatchInput) (ignores : List MRange) :
    List MRegion :=
  (((collectFragGo 0 [] ms).map
    (fun p => (⟨p.2.lang, ⟨p.2.start_byte, p.2.end_byte⟩, p.2.escape_chars⟩ : MRegion))).filter
    (fun r => !(is_ignored r.range ignores)))

/-- Error value of a formatter invocation, carrying the formatter's command
name and the raw stderr bytes (`anyhow::bail!("Failed to run formatter {}: {}",
formatter.cmd, ...)` in `src/api/format/runner.rs`). -/
structure RunnerError where
  cmd : String
  stderr : List Nat
deriving DecidableEq, Repr

/-- From `src/api/format/runner.rs` `format`, stdin path, after the child
has exited: non-zero exit fails; configured `fail_on_stderr` with non-empty
stderr fails; otherwise the raw stdout is returned as the result. -/
def runner_result (cmd : String) (status_success : Bool)
    (stderr stdout : List Nat) (fail_on_stderr : Bool) :
    Except RunnerError (List Nat) :=
  if status_success = false then .error ⟨cmd, stderr⟩
  else if fail_on_stderr && !stderr.isEmpty then .error ⟨cmd, stderr⟩
  else .ok stdout

/-- The alias-conflict message of `crates/cli/src/config.rs` `load`
(`"Language alias '{}' conflicts: maps to '{}' and '{}'"`). -/
def aliasErrMsg (a existing canonical : String) : String :=
  "Language alias \x27" ++ a ++ "\x27 conflicts: maps to \x27" ++
    existing ++ "\x27 and \x27" ++ canonical ++ "\x27"

/-- `HashMap::get` on the association-list model of `alias_to_canonical`. -/
def lookupAlias (m : List (String × String)) (a : String) : Option String :=
  (m.find? (fun p => p.1 == a)).map (fun p => p.2)

/-- `HashMap::insert` on the association-list model: overwrite an existing
binding, else append. -/
def insertAlias (m : List (String × String)) (a c : String) :
    List (String × String) :=
  if m.any (fun p => p.1 == a) then
    m.map (fun p => if p.1 == a then (a, c) else p)
  else m ++ [(a, c)]

/-- From `crates/cli/src/config.rs` `load`, inner loop: fold one canonical
name's alias list into the map, failing on a conflicting prior binding. -/
def addAliases (canonical : String) (acc : List (String × String)) :
    List String → Except String (List (String × String))
  | [] => .ok acc
  | a :: rest =>
    match lookupAlias acc a with
    | some existing =>
      if existing ≠ canonical then .error (aliasErrMsg a existing canonical)
      else addAliases canonical (insertAlias acc a canonical) rest
    | none => addAliases canonical (insertAlias acc a canonical) rest

/-- From `crates/cli/src/config.rs` `load`, outer loop over
`language_aliases` (a map from canonical name to alias list, modelled as an
association list in some iteration order). -/
def buildAliasGo (acc : List (String × String)) :
    List (String × List String) → Except String (List (String × String))
  | [] => .ok acc
  | (c, aliases) :: rest =>
    match addAliases c acc aliases with
    | .ok acc2 => buildAliasGo acc2 rest
    | .error e => .error e

/-- From `crates/cli/src/config.rs` `load` (lines 362-377): flatten
`language_aliases` into `alias_to_canonical`, validating conflicts. -/
def build_alias_map (cfg : List (String × List String)) :
    Except String (List (String × String)) :=
  buildAliasGo [] cfg

/-- `a` is declared as an alias of canonical name `c` in the config. -/
def declaredAlias (cfg : List (String × List String)) (a c : String) : Prop :=
  ∃ p ∈ cfg, p.1 = c ∧ a ∈ p.2

instance (cfg : List (String × List String)) (a c : String) :
    Decidable (declaredAlias cfg a c) := by
  unfold declaredAlias; infer_instance

/-- From `src/api/format.rs` / `crates/cli/src/api/format.rs`
`format_file`, with the file content and the (already computed) format
result as values: first component is the returned change flag, second the
content written back, if any. -/
def format_file_model (content result : List Nat) (write : Bool) :
    Bool × Option (List Nat) :=
  if result = content then (false, none)
  else (true, if write then some result else none)

/-- A continuation byte of a UTF-8 sequence. -/
def utf8Cont (b : Nat) : Bool := 0x80 ≤ b && b ≤ 0xBF

/-- UTF-8 validity of a byte sequence, modelling `String::from_utf8`
(overlong encodings, surrogates and out-of-range values are rejected). -/
def utf8Valid : List Nat → Bool
  | [] => true
  | b :: rest =>
    if b < 0x80 then utf8Valid rest
    else if 0xC2 ≤ b ∧ b ≤ 0xDF then
      match rest with
      | c1 :: r2 => utf8Cont c1 && utf8Valid r2
      | [] => false
    else if 0xE0 ≤ b ∧ b ≤ 0xEF then
      match rest with
      | c1 :: c2 :: r3 =>
        (if b = 0xE0 then 0xA0 ≤ c1 && c1 ≤ 0xBF
         else if b = 0xED then 0x80 ≤ c1 && c1 ≤ 0x9F
         else utf8Cont c1) && utf8Cont c2 && utf8Valid r3
      | _ => false
    else if 0xF0 ≤ b ∧ b ≤ 0xF4 then
      match rest with
      | c1 :: c2 :: c3 :: r4 =>
        (if b = 0xF0 then 0x90 ≤ c1 && c1 ≤ 0xBF
         else if b = 0xF4 then 0x80 ≤ c1 && c1 ≤ 0x8F
         else utf8Cont c1) && utf8Cont c2 && utf8Cont c3 && utf8Valid r4
      | _ => false
    else false

/-- An injected region as consumed by the region pipeline of
`crates/cli/src/api/format.rs` `format` (the fields the pipeline reads). -/
structure CliRegion where
  start_byte : Nat
  end_byte : Nat
  escape_chars : List (List Nat)
deriving DecidableEq, Repr

/-- The per-region body of `crates/cli/src/api/format.rs` `format`
(lines 67-120), with the recursive `format` call replaced by the identity
— the claim's hypothesis that no external formatter (and hence, reading
the claim coinductively, no recursive level) modifies anything.  `none`
models the `?`-propagated `String::from_utf8` failure. -/
def process_region (buffer : List Nat) (r : CliRegion) : Option (List Nat) :=
  let source_slice := (buffer.take r.end_byte).drop r.start_byte
  let escape_chars := sort_escape_chars r.escape_chars
  if utf8Valid source_slice = false then none
  else
    let unescaped_source_str :=
      if escape_chars.isEmpty then source_slice
      else unescape_text escape_chars source_slice
    let indent0 := column_for_byte buffer r.start_byte
    let st :=
      if 0 < indent0 then
        (strip_leading_indent unescaped_source_str indent0, indent0, false)
      else
        let min_indent := min_leading_indent unescaped_source_str
        if 0 < min_indent then
          (strip_leading_indent unescaped_source_str min_indent, min_indent, true)
        else (unescaped_source_str, 0, false)
    let trailing := trailing_newlines source_slice
    let formatted_sub_result := st.1
    let reescaped :=
      if escape_chars.isEmpty then some formatted_sub_result
      else if utf8Valid formatted_sub_result then
        some (escape_text escape_chars formatted_sub_result)
      else none
    match reescaped with
    | none => none
    | some out =>
      let out2 := strip_trailing_newlines out ++ trailing
      let out3 :=
        if st.2.2 && decide (0 < st.2.1) &&
            !(out2.head? = some 10 || out2.head? = some 13) then
          List.replicate st.2.1 32 ++ out2
        else out2
      some (offset_lines out3 st.2.1)

/-- Collect per-region results, failing on the first failure (the
`collect` + `for result in ... { result? }` fan-in of `format`). -/
def mapOptionList (f : α → Option β) : List α → Option (List β)
  | [] => some []
  | a :: l =>
    match f a, mapOptionList f l with
    | some b, some bs => some (b :: bs)
    | _, _ => none

/-- `Vec::splice(start..stop, repl)` on lists. -/
def spliceBytes (buf : List Nat) (start stop : Nat) (repl : List Nat) :
    List Nat :=
  buf.take start ++ repl ++ buf.drop stop

/-- Descending order on regions by `start_byte` (the
`b.range.start_byte.cmp(&a.range.start_byte)` sort). -/
def regionDesc (a b : CliRegion) : Prop := b.start_byte ≤ a.start_byte

instance : DecidableRel regionDesc := fun a b => by
  unfold regionDesc; infer_instance

/-- Same order on (region, result) pairs (the re-sort after collection). -/
def regionPairDesc (a b : CliRegion × List Nat) : Prop :=
  b.1.start_byte ≤ a.1.start_byte

instance : DecidableRel regionPairDesc := fun a b => by
  unfold regionPairDesc; infer_instance

/-- The region pipeline of `crates/cli/src/api/format.rs` `format`
(lines 60-138) for a fixed extracted region list: sort descending by
`start_byte`, process every region, re-sort the collected results, splice
each back in.  The root formatter pass is the identity here (the claim's
"no external formatter runs / none modifies its input"). -/
def format_model (buffer : List Nat) (regions : List CliRegion) :
    Option (List Nat) :=
  let sorted := List.insertionSort regionDesc regions
  match mapOptionList
      (fun r => (process_region buffer r).map (fun o => (r, o))) sorted with
  | none => none
  | some results =>
    let results2 := List.insertionSort regionPairDesc results
    some (results2.foldl
      (fun buf pr => spliceBytes buf pr.1.start_byte pr.1.end_byte pr.2) buffer)

/-! ## Helper lemmas -/

theorem strip_trailing_append_trailing (l : List Nat) :
    strip_trailing_newlines l ++ trailing_newlines l = l := by
  unfold strip_trailing_newlines trailing_newlines
  rw [← List.reverse_append, List.takeWhile_append_dropWhile, List.reverse_reverse]

theorem spliceBytes_self (l : List Nat) (s e : Nat) (hse : s ≤ e) :
    spliceBytes l s e ((l.take e).drop s) = l := by
  unfold spliceBytes
  have h1 : l.take s ++ (l.take e).drop s = l.take e := by
    have : l.take s = (l.take e).take s := by
      rw [List.take_take, Nat.min_eq_left hse]
    rw [this, List.take_append_drop]
  rw [h1, List.take_append_drop]

theorem offset_lines_zero (l : List Nat) : offset_lines l 0 = l := by
  simp [offset_lines]

theorem mapOptionList_ok (f : α → Option β) (g : α → β) (l : List α)
    (h : ∀ a ∈ l, f a = some (g a)) :
    mapOptionList f l = some (l.map g) := by
  induction l with
  | nil => rfl
  | cons a l ih =>
    have ha := h a (by simp)
    have hl : ∀ x ∈ l, f x = some (g x) := fun x hx => h x (by simp [hx])
    simp [mapOptionList, ha, ih hl]

theorem getElem_len_append (l1 : List α) (a : α) (l2 : List α)
    (h : l1.length < (l1 ++ a :: l2).length) :
    (l1 ++ a :: l2)[l1.length] = a := by
  induction l1 with
  | nil => rfl
  | cons x xs ih =>
    simpa using ih (by simp only [List.length_append, List.length_cons]; omega)

theorem getElem?_len_succ_append (l1 : List α) (a : α) (l2 : List α) :
    (l1 ++ a :: l2)[l1.length + 1]? = l2[0]? := by
  rw [List.getElem?_append_right (by omega)]
  simp

theorem take_len_succ_append (l1 : List α) (a : α) (l2 : List α) :
    (l1 ++ a :: l2).take (l1.length + 1) = l1 ++ [a] := by
  induction l1 with
  | nil => simp
  | cons x xs ih => simp [ih]

theorem drop_len_succ_append (l1 : List α) (a : α) (l2 : List α) :
    (l1 ++ a :: l2).drop (l1.length + 1) = l2 := by
  induction l1 with
  | nil => simp
  | cons x xs ih => simp [ih]

theorem offsetLinesLoop_eq (offset : Nat) (todo done : List Nat) :
    offsetLinesLoop offset (done ++ todo) done.length =
      done ++ offsetLinesSpec offset todo := by
  induction todo generalizing done with
  | nil =>
    rw [offsetLinesLoop]
    simp [offsetLinesSpec]
  | cons c rest ih =>
    rw [offsetLinesLoop]
    have hlen : done.length < (done ++ c :: rest).length := by simp
    rw [dif_pos hlen]
    have hget : (done ++ c :: rest)[done.length] = c :=
      getElem_len_append done c rest hlen
    by_cases hc : c = 10
    · subst hc
      rw [if_pos hget, getElem?_len_succ_append]
      cases rest with
      | nil =>
        simp only [List.getElem?_nil]
        have h2 := ih (done ++ [10])
        simp only [offsetLinesSpec, List.append_nil, List.length_append,
          List.length_cons, List.length_nil] at h2
        rw [offsetLinesSpec]
        simpa using h2
      | cons b rest2 =>
        simp only [List.getElem?_cons_zero]
        by_cases hb : b = 10 ∨ b = 13
        · rw [if_pos hb]
          have h2 := ih (done ++ [10])
          have e1 : done ++ 10 :: b :: rest2 = (done ++ [10]) ++ b :: rest2 := by
            simp
          have e2 : done.length + 1 = (done ++ [10]).length := by simp
          rw [e1, e2, h2]
          simp [offsetLinesSpec, hb]
        · rw [if_neg hb, take_len_succ_append, drop_len_succ_append]
          have h2 := ih (done ++ 10 :: List.replicate offset 32)
          have e1 : (done ++ [10]) ++ List.replicate offset 32 ++ b :: rest2 =
              (done ++ 10 :: List.replicate offset 32) ++ b :: rest2 := by
            simp
          have e2 : done.length + offset + 1 =
              (done ++ 10 :: List.replicate offset 32).length := by
            simp only [List.length_append, List.length_cons,
              List.length_replicate]
            omega
          rw [e1, e2, h2]
          simp [offsetLinesSpec, hb]
    · rw [if_neg (by rw [hget]; exact hc)]
      have h2 := ih (done ++ [c])
      have e1 : done ++ c :: rest = (done ++ [c]) ++ rest := by simp
      have e2 : done.length + 1 = (done ++ [c]).length := by simp
      rw [e1, e2, h2]
      simp [offsetLinesSpec, hc]

theorem sublist_offsetLinesSpec (offset : Nat) (l : List Nat) :
    l.Sublist (offsetLinesSpec offset l) := by
  induction l with
  | nil => simp [offsetLinesSpec]
  | cons c rest ih =>
    by_cases hc : c = 10
    · subst hc
      cases rest with
      | nil => simp [offsetLinesSpec]
      | cons b rest2 =>
        by_cases hb : b = 10 ∨ b = 13
        · rw [show offsetLinesSpec offset (10 :: b :: rest2) =
              10 :: offsetLinesSpec offset (b :: rest2) from by
            rw [offsetLinesSpec.eq_def]; simp [hb]]
          exact ih.cons₂ 10
        · rw [show offsetLinesSpec offset (10 :: b :: rest2) =
              10 :: (List.replicate offset 32 ++ offsetLinesSpec offset (b :: rest2)) from by
            rw [offsetLinesSpec.eq_def]; simp [hb]]
          exact (ih.trans (List.sublist_append_right _ _)).cons₂ 10
    · rw [show offsetLinesSpec offset (c :: rest) =
          c :: offsetLinesSpec offset rest from by
        rw [offsetLinesSpec.eq_def]; simp [hc]]
      exact ih.cons₂ c

/-! ## C7: offset_lines -/

/-- C7: for every byte buffer and every `n ≥ 1`, `offset_lines` equals the
per-newline insertion description `offsetLinesSpec` — exactly `n` ASCII
spaces are inserted immediately after each `\n` whose following byte exists
and is neither `\n` nor `\r` (so blank lines and the trailing-newline
suffix are never indented) — and every original byte is preserved in order
(the input is a sublist of the output). -/
theorem offset_lines_correct (data : List Nat) (n : Nat) (h : 1 ≤ n) :
    offset_lines data n = offsetLinesSpec n data ∧
    data.Sublist (offset_lines data n) := by
  have he : offset_lines data n = offsetLinesSpec n data := by
    unfold offset_lines
    rw [if_neg (by omega)]
    simpa using offsetLinesLoop_eq n data []
  exact ⟨he, he ▸ sublist_offsetLinesSpec n data⟩

/-- Witness for C7 on a concrete buffer with an indentable line, a blank
line and a trailing newline. -/
theorem offset_lines_correct_witness :
    1 ≤ 2 ∧
    (offset_lines [10, 97, 10, 10, 98, 10] 2 =
        offsetLinesSpec 2 [10, 97, 10, 10, 98, 10] ∧
      List.Sublist [10, 97, 10, 10, 98, 10]
        (offset_lines [10, 97, 10, 10, 98, 10] 2)) :=
  ⟨by decide, offset_lines_correct [10, 97, 10, 10, 98, 10] 2 (by decide)⟩

/-! ## C9: trim directives never widen the window -/

theorem firstIdxNl_spec (l : List Nat) (i : Nat) (h : firstIdxNl l = some i) :
    i < l.length ∧ l[i]? = some 10 := by
  induction l generalizing i with
  | nil => simp [firstIdxNl] at h
  | cons b rest ih =>
    by_cases hb : b = 10
    · subst hb
      simp [firstIdxNl] at h
      subst h
      simp
    · simp [firstIdxNl, hb] at h
      obtain ⟨j, hj, rfl⟩ := h
      obtain ⟨h1, h2⟩ := ih j hj
      exact ⟨by simp only [List.length_cons]; omega, by simpa using h2⟩

theorem lastIdxNl_spec (l : List Nat) (i : Nat) (h : lastIdxNl l = some i) :
    i < l.length ∧ l[i]? = some 10 := by
  simp only [lastIdxNl, Option.map_eq_some'] at h
  obtain ⟨j, hj, rfl⟩ := h
  obtain ⟨h1, h2⟩ := firstIdxNl_spec _ _ hj
  rw [List.length_reverse] at h1
  refine ⟨by omega, ?_⟩
  rw [List.getElem?_eq_getElem (by omega)]
  rw [List.getElem?_eq_getElem (by simpa using h1)] at h2
  rw [List.getElem_reverse] at h2
  simpa [List.length_reverse] using h2

theorem lineStartOf_ge (source : List Nat) (s e : Nat) :
    s ≤ lineStartOf source s e := by
  unfold lineStartOf
  cases lastIdxNl ((source.take (lineEndOf source s e)).drop s) with
  | none => simp
  | some i => simp only []; omega

theorem lineStartOf_lt (source : List Nat) (s e : Nat) (hse : s < e) :
    lineStartOf source s e < e := by
  unfold lineStartOf lineEndOf
  by_cases hl10 : ((source.take e).drop s).getLast? = some 10
  · rw [if_pos hl10]
    cases hm : lastIdxNl ((source.take (e - 1)).drop s) with
    | none => simpa [hm] using hse
    | some i =>
      simp only [hm]
      obtain ⟨h1, _h2⟩ := lastIdxNl_spec _ _ hm
      simp only [List.length_drop, List.length_take] at h1
      omega
  · rw [if_neg hl10]
    cases hm : lastIdxNl ((source.take e).drop s) with
    | none => simpa [hm] using hse
    | some i =>
      simp only [hm]
      by_cases hcase : s + i + 1 < e
      · exact hcase
      · exfalso
        obtain ⟨h1, h2⟩ := lastIdxNl_spec _ _ hm
        have hlen : ((source.take e).drop s).length = min e source.length - s := by
          simp
        apply hl10
        rw [List.getLast?_eq_getElem?]
        have he : ((source.take e).drop s).length - 1 = i := by omega
        rw [he]
        exact h2

theorem trim_start_linewise_bounds (source : List Nat) (s e : Nat)
    (hse : s ≤ e) :
    s ≤ trim_start_linewise source s e ∧ trim_start_linewise source s e ≤ e := by
  have H : ∀ n s e, e - s ≤ n → s ≤ e →
      s ≤ trim_start_linewise source s e ∧ trim_start_linewise source s e ≤ e := by
    intro n
    induction n with
    | zero =>
      intro s e hn hle
      rw [trim_start_linewise, dif_neg (by omega)]
      omega
    | succ n ih =>
      intro s e hn hle
      rw [trim_start_linewise]
      by_cases hse2 : s < e
      · rw [dif_pos hse2]
        cases hnl : firstIdxNl ((source.take e).drop s) with
        | none =>
          simp only [hnl]
          by_cases hws : is_line_whitespace_only ((source.take e).drop s) <;>
            simp [hws] <;> omega
        | some nl =>
          simp only [hnl]
          by_cases hws : is_line_whitespace_only (((source.take e).drop s).take nl)
          · rw [if_pos hws]
            have hm1 : min (s + nl + 1) e ≤ e := Nat.min_le_right _ _
            have hm2 : s + 1 ≤ min (s + nl + 1) e := le_min (by omega) (by omega)
            have hb := ih (min (s + nl + 1) e) e (by omega) (by omega)
            omega
          · rw [if_neg hws]
            omega
      · rw [dif_neg hse2]
        omega
  exact H (e - s) s e (by omega) hse

theorem trim_end_linewise_bounds (source : List Nat) (s e : Nat)
    (hse : s ≤ e) :
    s ≤ trim_end_linewise source s e ∧ trim_end_linewise source s e ≤ e := by
  have H : ∀ n s e, e - s ≤ n → s ≤ e →
      s ≤ trim_end_linewise source s e ∧ trim_end_linewise source s e ≤ e := by
    intro n
    induction n with
    | zero =>
      intro s e hn hle
      rw [trim_end_linewise, dif_neg (by omega)]
      omega
    | succ n ih =>
      intro s e hn hle
      rw [trim_end_linewise]
      by_cases hse2 : s < e
      · rw [dif_pos hse2]
        have hge := lineStartOf_ge source s e
        have hlt := lineStartOf_lt source s e hse2
        by_cases hws : is_line_whitespace_only
            ((source.take (lineEndOf source s e)).drop (lineStartOf source s e))
        · rw [if_pos hws]
          have hb := ih s (lineStartOf source s e) (by omega) (by omega)
          omega
        · rw [if_neg hws]
          omega
      · rw [dif_neg hse2]
        omega
  exact H (e - s) s e (by omega) hse

theorem trim_start_charwise_bounds (source : List Nat) (s e : Nat)
    (hse : s ≤ e) :
    s ≤ trim_start_charwise source s e ∧ trim_start_charwise source s e ≤ e := by
  have H : ∀ n s e, e - s ≤ n → s ≤ e →
      s ≤ trim_start_charwise source s e ∧ trim_start_charwise source s e ≤ e := by
    intro n
    induction n with
    | zero =>
      intro s e hn hle
      rw [trim_start_charwise, dif_neg (by omega)]
      omega
    | succ n ih =>
      intro s e hn hle
      rw [trim_start_charwise]
      by_cases hse2 : s < e
      · rw [dif_pos hse2]
        by_cases hc : is_charwise_whitespace (source.getD s 0)
        · rw [if_pos hc]
          have hb := ih (s + 1) e (by omega) (by omega)
          omega
        · rw [if_neg hc]
          omega
      · rw [dif_neg hse2]
        omega
  exact H (e - s) s e (by omega) hse

theorem trim_end_charwise_bounds (source : List Nat) (s e : Nat)
    (hse : s ≤ e) :
    s ≤ trim_end_charwise source s e ∧ trim_end_charwise source s e ≤ e := by
  have H : ∀ n s e, e - s ≤ n → s ≤ e →
      s ≤ trim_end_charwise source s e ∧ trim_end_charwise source s e ≤ e := by
    intro n
    induction n with
    | zero =>
      intro s e hn hle
      rw [trim_end_charwise, dif_neg (by omega)]
      omega
    | succ n ih =>
      intro s e hn hle
      rw [trim_end_charwise]
      by_cases hse2 : s < e
      · rw [dif_pos hse2]
        by_cases hc : is_charwise_whitespace (source.getD (e - 1) 0)
        · rw [if_pos hc]
          have hb := ih s (e - 1) (by omega) (by omega)
          omega
        · rw [if_neg hc]
          omega
      · rw [dif_neg hse2]
        omega
  exact H (e - s) s e (by omega) hse

theorem trimEndSpaces_bounds (source : List Nat) (s e : Nat) (hse : s ≤ e) :
    s ≤ trimEndSpaces source s e ∧ trimEndSpaces source s e ≤ e := by
  have H : ∀ n s e, e - s ≤ n → s ≤ e →
      s ≤ trimEndSpaces source s e ∧ trimEndSpaces source s e ≤ e := by
    intro n
    induction n with
    | zero =>
      intro s e hn hle
      rw [trimEndSpaces, dif_neg (by omega)]
      omega
    | succ n ih =>
      intro s e hn hle
      rw [trimEndSpaces]
      by_cases hse2 : s < e
      · rw [dif_pos hse2]
        by_cases hc : ((source.getD (e - 1) 0) == 32 || (source.getD (e - 1) 0) == 9) = true
        · rw [if_pos hc]
          have hb := ih s (e - 1) (by omega) (by omega)
          omega
        · rw [if_neg hc]
          omega
      · rw [dif_neg hse2]
        omega
  exact H (e - s) s e (by omega) hse

/-- C9: `apply_trim` (for every `TrimSpec`) and the indented `trim_bytes`
shrink the byte window but never cross its endpoints: on a valid window
`s < e ≤ length` they return `(s2, e2)` with `s ≤ s2 ≤ e2 ≤ e`, and on a
degenerate window (`s ≥ e` or `e > length`) they return the input pair
unchanged. -/
theorem trim_never_widens (source : List Nat) (s e : Nat) (spec : TrimSpec) :
    (s < e → e ≤ source.length →
      s ≤ (apply_trim source s e spec).1 ∧
      (apply_trim source s e spec).1 ≤ (apply_trim source s e spec).2 ∧
      (apply_trim source s e spec).2 ≤ e) ∧
    (¬(s < e ∧ e ≤ source.length) → apply_trim source s e spec = (s, e)) ∧
    (s < e → e ≤ source.length →
      s ≤ (trim_bytes source s e).1 ∧
      (trim_bytes source s e).1 ≤ (trim_bytes source s e).2 ∧
      (trim_bytes source s e).2 ≤ e) ∧
    (¬(s < e ∧ e ≤ source.length) → trim_bytes source s e = (s, e)) := by
  refine ⟨?_, ?_, ?_, ?_⟩
  · intro hse hel
    unfold apply_trim
    rw [if_neg (by omega)]
    simp only []
    set s1 := if spec.start_linewise then trim_start_linewise source s e else s with hs1
    have hs1b : s ≤ s1 ∧ s1 ≤ e := by
      rw [hs1]
      split
      · exact trim_start_linewise_bounds source s e (by omega)
      · omega
    set s2 := if spec.start_charwise then trim_start_charwise source s1 e else s1 with hs2
    have hs2b : s1 ≤ s2 ∧ s2 ≤ e := by
      rw [hs2]
      split
      · exact trim_start_charwise_bounds source s1 e (by omega)
      · omega
    set e1 := if spec.end_linewise then trim_end_linewise source s2 e else e with he1
    have he1b : s2 ≤ e1 ∧ e1 ≤ e := by
      rw [he1]
      split
      · exact trim_end_linewise_bounds source s2 e (by omega)
      · omega
    set e2 := if spec.end_charwise then trim_end_charwise source s2 e1 else e1 with he2
    have he2b : s2 ≤ e2 ∧ e2 ≤ e1 := by
      rw [he2]
      split
      · exact trim_end_charwise_bounds source s2 e1 (by omega)
      · omega
    exact ⟨by omega, by omega, by omega⟩
  · intro hguard
    unfold apply_trim
    rw [if_pos (by omega)]
  · intro hse hel
    unfold trim_bytes
    rw [if_neg (by omega)]
    simp only []
    cases hnl : firstIdxNl ((source.take e).drop s) with
    | none =>
      simp only [hnl]
      have hts := trimEndSpaces_bounds source s e (by omega)
      exact ⟨by omega, by omega, by omega⟩
    | some nl =>
      simp only [hnl]
      by_cases hws : (((source.take e).drop s).take nl).all
          (fun b => b == 32 || b == 9 || b == 13)
      · rw [if_pos hws]
        have hm1 : min (s + nl + 1) e ≤ e := Nat.min_le_right _ _
        have hm2 : s ≤ min (s + nl + 1) e := le_min (by omega) (by omega)
        have hts := trimEndSpaces_bounds source (min (s + nl + 1) e) e (by omega)
        exact ⟨by omega, by omega, by omega⟩
      · rw [if_neg hws]
        have hts := trimEndSpaces_bounds source s e (by omega)
        exact ⟨by omega, by omega, by omega⟩
  · intro hguard
    unfold trim_bytes
    rw [if_pos (by omega)]

/-- Witness for C9 at a concrete valid window. -/
theorem trim_never_widens_witness :
    ((1 : Nat) < 4 → 4 ≤ [32, 32, 10, 32, 97].length →
      1 ≤ (apply_trim [32, 32, 10, 32, 97] 1 4 ⟨true, true, true, true⟩).1 ∧
      (apply_trim [32, 32, 10, 32, 97] 1 4 ⟨true, true, true, true⟩).1 ≤
        (apply_trim [32, 32, 10, 32, 97] 1 4 ⟨true, true, true, true⟩).2 ∧
      (apply_trim [32, 32, 10, 32, 97] 1 4 ⟨true, true, true, true⟩).2 ≤ 4) ∧
    (¬((1 : Nat) < 4 ∧ 4 ≤ [32, 32, 10, 32, 97].length) →
      apply_trim [32, 32, 10, 32, 97] 1 4 ⟨true, true, true, true⟩ = (1, 4)) ∧
    ((1 : Nat) < 4 → 4 ≤ [32, 32, 10, 32, 97].length →
      1 ≤ (trim_bytes [32, 32, 10, 32, 97] 1 4).1 ∧
      (trim_bytes [32, 32, 10, 32, 97] 1 4).1 ≤
        (trim_bytes [32, 32, 10, 32, 97] 1 4).2 ∧
      (trim_bytes [32, 32, 10, 32, 97] 1 4).2 ≤ 4) ∧
    (¬((1 : Nat) < 4 ∧ 4 ≤ [32, 32, 10, 32, 97].length) →
      trim_bytes [32, 32, 10, 32, 97] 1 4 = (1, 4)) :=
  trim_never_widens [32, 32, 10, 32, 97] 1 4 ⟨true, true, true, true⟩

/-! ## C2: ignored containment -/

/-- C2: for every document (modelled by its match list) and grammar, an
injected region whose byte range lies inside any ignored range — with the
containment test closed on both ends, `region.start_byte ≥ ignore.start_byte`
and `region.end_byte ≤ ignore.end_byte` — is absent from the list returned
by the extractor. -/
theorem extract_model_drops_ignored (ms : List MatchInput)
    (ignores : List MRange) (r : MRegion)
    (h : ∃ ig ∈ ignores, ig.start_byte ≤ r.range.start_byte ∧
      r.range.end_byte ≤ ig.end_byte) :
    r ∉ extract_model ms ignores := by
  intro hmem
  unfold extract_model at hmem
  rw [List.mem_filter] at hmem
  obtain ⟨-, hfilt⟩ := hmem
  obtain ⟨ig, higmem, h1, h2⟩ := h
  have hig : is_ignored r.range ignores = true := by
    unfold is_ignored
    rw [List.any_eq_true]
    refine ⟨ig, higmem, ?_⟩
    simp only [Bool.and_eq_true, decide_eq_true_eq, ge_iff_le]
    exact ⟨h1, h2⟩
  simp [hig] at hfilt

/-- Witness for C2 at a concrete containment instance. -/
theorem extract_model_drops_ignored_witness :
    (∃ ig ∈ [(⟨1, 6⟩ : MRange)], ig.start_byte ≤ 2 ∧ 5 ≤ ig.end_byte) ∧
    (⟨"js", ⟨2, 5⟩, []⟩ : MRegion) ∉
      extract_model [⟨0, false, "js", 0, 0, 2, 5, []⟩] [⟨1, 6⟩] :=
  ⟨by decide,
    extract_model_drops_ignored [⟨0, false, "js", 0, 0, 2, 5, []⟩] [⟨1, 6⟩]
      ⟨"js", ⟨2, 5⟩, []⟩ (by decide)⟩

/-! ## C3: combined merging -/

/-- C3: two matches whose content captures share `pattern_index`, language
and container span, both under `injection.combined`, yield exactly one
region whose byte span is [min fragment start, max fragment end] and whose
escape-char set is the union (list membership) of the fragments' sets. -/
theorem combined_fragments_merge (m1 m2 : MatchInput)
    (hc1 : m1.combined = true) (hc2 : m2.combined = true)
    (hp : m2.pattern_index = m1.pattern_index) (hl : m2.lang = m1.lang)
    (hcs : m2.container_start = m1.container_start)
    (hce : m2.container_end = m1.container_end) :
    extract_model [m1, m2] [] =
      [⟨m1.lang, ⟨min m1.start_byte m2.start_byte, max m1.end_byte m2.end_byte⟩,
        m1.escape_chars ++ m2.escape_chars⟩] ∧
    ∀ s, s ∈ m1.escape_chars ++ m2.escape_chars ↔
      (s ∈ m1.escape_chars ∨ s ∈ m2.escape_chars) := by
  constructor
  · simp [extract_model, collectFragGo, upsertFragment, keyFor, fragFor,
      mergeFragment, is_ignored, hc1, hc2, hp, hl, hcs, hce]
  · intro s
    exact List.mem_append

/-- Witness for C3 at two concrete combinable matches. -/
theorem combined_fragments_merge_witness :
    extract_model [⟨3, true, "js", 10, 50, 12, 20, [[34]]⟩,
        ⟨3, true, "js", 10, 50, 25, 40, [[39]]⟩] [] =
      [⟨"js", ⟨min 12 25, max 20 40⟩, [[34]] ++ [[39]]⟩] ∧
    ∀ s, s ∈ [[34]] ++ [[39]] ↔ (s ∈ [[34]] ∨ s ∈ ([[39]] : List (List Nat))) :=
  combined_fragments_merge ⟨3, true, "js", 10, 50, 12, 20, [[34]]⟩
    ⟨3, true, "js", 10, 50, 25, 40, [[39]]⟩ rfl rfl rfl rfl rfl rfl

/-! ## C5: offset recomputation failure falls back to the base range -/

/-- C5: when recomputing an offset-adjusted range fails — an adjusted row
or column would be negative, or the whole recomputation (including mapping
the adjusted points back to byte positions) returns `none` — extraction
does not abort: the region simply uses the capture's unmodified base
range. -/
theorem offset_failure_falls_back (source : List Nat) (range : TSRange)
    (offset : RangeOffset)
    (hfail : ((range.start_point.row : Int) + offset.start_row < 0) ∨
      ((range.start_point.column : Int) + offset.start_col < 0) ∨
      ((range.end_point.row : Int) + offset.end_row < 0) ∨
      ((range.end_point.column : Int) + offset.end_col < 0) ∨
      apply_offset_to_range source range offset = none) :
    range_with_offset source range offset = range := by
  have hnone : apply_offset_to_range source range offset = none := by
    rcases hfail with h | h | h | h | h
    · simp [apply_offset_to_range, apply_signed, if_pos h]
    · cases h1 : apply_signed range.start_point.row offset.start_row with
      | none => simp [apply_offset_to_range, h1]
      | some v => simp [apply_offset_to_range, h1, apply_signed, if_pos h]
    · cases h1 : apply_signed range.start_point.row offset.start_row with
      | none => simp [apply_offset_to_range, h1]
      | some a =>
        cases h2 : apply_signed range.start_point.column offset.start_col with
        | none => simp [apply_offset_to_range, h1, h2]
        | some b =>
          have h3 : apply_signed range.end_point.row offset.end_row = none := by
            simp [apply_signed, if_pos h]
          simp [apply_offset_to_range, h1, h2, h3]
    · cases h1 : apply_signed range.start_point.row offset.start_row with
      | none => simp [apply_offset_to_range, h1]
      | some a =>
        cases h2 : apply_signed range.start_point.column offset.start_col with
        | none => simp [apply_offset_to_range, h1, h2]
        | some b =>
          cases h3 : apply_signed range.end_point.row offset.end_row with
          | none => simp [apply_offset_to_range, h1, h2, h3]
          | some c =>
            have h4 : apply_signed range.end_point.column offset.end_col = none := by
              simp [apply_signed, if_pos h]
            simp [apply_offset_to_range, h1, h2, h3, h4]
    · exact h
  unfold range_with_offset
  rw [hnone]
  rfl

/-- Witness for C5: a `-1` row offset at row 0 falls back to the base
range. -/
theorem offset_failure_falls_back_witness :
    (((0 : Nat) : Int) + (-1 : Int) < 0) ∧
    range_with_offset [] ⟨0, 1, ⟨0, 0⟩, ⟨0, 1⟩⟩ ⟨-1, 0, 0, 0⟩ =
      ⟨0, 1, ⟨0, 0⟩, ⟨0, 1⟩⟩ :=
  ⟨by decide,
    offset_failure_falls_back [] ⟨0, 1, ⟨0, 0⟩, ⟨0, 1⟩⟩ ⟨-1, 0, 0, 0⟩
      (Or.inl (by decide))⟩

/-! ## C6: empty formatter output -/

/-- C6 (code as given): the runner in `src/api/format/runner.rs` returns a
zero-length stdout as a SUCCESSFUL result — on a successful exit with empty
stderr and empty stdout it yields `.ok []` instead of the error naming the
formatter that the spec and the repository's own test
`fail_on_empty_stdout` ("Unexpected empty result received from formatter:
echo") require. -/
theorem runner_empty_stdout_succeeds :
    runner_result "echo" true [] [] false = .ok [] := rfl

/-! ## C10: format_file change flag and write-back -/

/-- C10: `format_file` returns `false` and writes nothing when the
formatted result equals the file content; it writes the result back exactly
when the result differs and the write flag is set; and it returns `true`
whenever the result differs, regardless of the write flag. -/
theorem format_file_write_behavior (content result : List Nat) (write : Bool) :
    (result = content → format_file_model content result write = (false, none)) ∧
    ((format_file_model content result write).1 = true ↔ result ≠ content) ∧
    ((format_file_model content result write).2 = some result ↔
      (result ≠ content ∧ write = true)) := by
  by_cases h : result = content
  · subst h
    simp [format_file_model]
  · cases write <;> simp [format_file_model, h]

/-- Witness for C10 at concrete differing contents. -/
theorem format_file_write_behavior_witness :
    (([1] : List Nat) = [2] → format_file_model [2] [1] true = (false, none)) ∧
    ((format_file_model [2] [1] true).1 = true ↔ ([1] : List Nat) ≠ [2]) ∧
    ((format_file_model [2] [1] true).2 = some [1] ↔
      (([1] : List Nat) ≠ [2] ∧ true = true)) :=
  format_file_write_behavior [2] [1] true

/-! ## C8: language-alias validation -/

theorem map_replace_id (m : List (String × String)) (a c : String)
    (h : m.any (fun p => p.1 == a) = false) :
    m.map (fun p => if p.1 == a then (a, c) else p) = m := by
  induction m with
  | nil => rfl
  | cons p rest ih =>
    simp only [List.any_cons, Bool.or_eq_false_iff] at h
    rw [List.map_cons, h.1, if_neg (by simp), ih h.2]

theorem lookupAlias_map_replace (m : List (String × String)) (a c b : String)
    (h : m.any (fun p => p.1 == a) = true) :
    lookupAlias (m.map (fun p => if p.1 == a then (a, c) else p)) b =
      if b = a then some c else lookupAlias m b := by
  induction m with
  | nil => simp at h
  | cons p rest ih =>
    simp only [List.any_cons, Bool.or_eq_true] at h
    by_cases hp : p.1 = a
    · by_cases hba : b = a
      · subst hba
        simp [lookupAlias, hp]
      · by_cases hrest : rest.any (fun p => p.1 == a) = true
        · have hr := ih hrest
          rw [if_neg hba] at hr
          simp only [List.map_cons, lookupAlias, List.find?]
          rw [if_pos (by simpa using hp)]
          simp only [lookupAlias] at hr
          have hab : ((a, c).1 == b) = false := by
            simp [Ne.symm hba]
          rw [hab]
          have hpb : (p.1 == b) = false := by
            simp [hp, Ne.symm hba]
          rw [if_neg hba, hpb]
          exact hr
        · have hid := map_replace_id rest a c (Bool.eq_false_iff.mpr hrest)
          simp only [List.map_cons, lookupAlias, List.find?, hid]
          rw [if_pos (by simpa using hp)]
          have hab : ((a, c).1 == b) = false := by
            simp [Ne.symm hba]
          have hpb : (p.1 == b) = false := by
            simp [hp, Ne.symm hba]
          rw [hab, if_neg hba, hpb]
    · have hrest : rest.any (fun p => p.1 == a) = true := by
        rcases h with h | h
        · exact absurd (by simpa using h) hp
        · exact h
      have hr := ih hrest
      simp only [List.map_cons, lookupAlias, List.find?]
      rw [if_neg (by simpa using hp)]
      by_cases hpb : p.1 = b
      · have hba : ¬b = a := by
          intro e
          exact hp (by rw [← e, hpb])
        rw [if_neg hba]
        simp [hpb]
      · simp only [lookupAlias] at hr
        rw [show (p.1 == b) = false from by simp [hpb]]
        by_cases hba : b = a
        · rw [if_pos hba]
          rw [if_pos hba] at hr
          exact hr
        · rw [if_neg hba]
          rw [if_neg hba] at hr
          exact hr

theorem lookupAlias_append_single (m : List (String × String)) (a c b : String)
    (h : m.any (fun p => p.1 == a) = false) :
    lookupAlias (m ++ [(a, c)]) b = if b = a then some c else lookupAlias m b := by
  induction m with
  | nil =>
    simp only [List.nil_append]
    by_cases hba : b = a
    · subst hba
      simp [lookupAlias, List.find?]
    · rw [if_neg hba]
      have hab : (a == b) = false := by simp [Ne.symm hba]
      simp [lookupAlias, List.find?, hab]
  | cons p rest ih =>
    simp only [List.any_cons, Bool.or_eq_false_iff] at h
    simp only [List.cons_append, lookupAlias, List.find?]
    by_cases hpb : p.1 = b
    · have hba : ¬b = a := by
        intro e
        have : (p.1 == a) = true := by simp [hpb, e]
        rw [h.1] at this
        cases this
      rw [if_neg hba]
      simp [hpb]
    · rw [show (p.1 == b) = false from by simp [hpb]]
      have hr := ih h.2
      simp only [lookupAlias] at hr
      by_cases hba : b = a
      · rw [if_pos hba]
        rw [if_pos hba] at hr
        exact hr
      · rw [if_neg hba]
        rw [if_neg hba] at hr
        exact hr

theorem lookupAlias_insertAlias (m : List (String × String)) (a c b : String) :
    lookupAlias (insertAlias m a c) b =
      if b = a then some c else lookupAlias m b := by
  unfold insertAlias
  by_cases hany : m.any (fun p => p.1 == a) = true
  · rw [if_pos hany]
    exact lookupAlias_map_replace m a c b hany
  · rw [if_neg hany]
    exact lookupAlias_append_single m a c b (Bool.eq_false_iff.mpr hany)

theorem addAliases_ok_spec (canonical : String) (aliases : List String) :
    ∀ (acc acc2 : List (String × String)),
    addAliases canonical acc aliases = .ok acc2 →
    (∀ x c, lookupAlias acc x = some c → lookupAlias acc2 x = some c) ∧
    (∀ x, x ∈ aliases → lookupAlias acc2 x = some canonical) ∧
    (∀ x, x ∉ aliases → lookupAlias acc2 x = lookupAlias acc x) := by
  induction aliases with
  | nil =>
    intro acc acc2 h
    simp only [addAliases, Except.ok.injEq] at h
    subst h
    exact ⟨fun x c hx => hx, fun x hx => absurd hx (List.not_mem_nil x),
      fun x _ => rfl⟩
  | cons a rest ih =>
    intro acc acc2 h
    simp only [addAliases] at h
    cases hl : lookupAlias acc a with
    | some existing =>
      simp only [hl] at h
      by_cases hex : existing = canonical
      · rw [if_neg (by simp [hex])] at h
        obtain ⟨pres, sets, keeps⟩ := ih _ _ h
        refine ⟨?_, ?_, ?_⟩
        · intro x c hx
          apply pres
          rw [lookupAlias_insertAlias]
          by_cases hxa : x = a
          · subst hxa
            rw [if_pos rfl]
            rw [hl] at hx
            rw [← hx, hex]
          · rw [if_neg hxa]
            exact hx
        · intro x hx
          rcases List.mem_cons.mp hx with rfl | hx2
          · by_cases hmem : x ∈ rest
            · exact sets x hmem
            · rw [keeps x hmem, lookupAlias_insertAlias, if_pos rfl]
          · exact sets x hx2
        · intro x hx
          have hxa : x ≠ a := fun e => hx (e ▸ List.mem_cons_self a rest)
          have hxr : x ∉ rest := fun e => hx (List.mem_cons_of_mem a e)
          rw [keeps x hxr, lookupAlias_insertAlias, if_neg hxa]
      · rw [if_pos hex] at h
        cases h
    | none =>
      simp only [hl] at h
      obtain ⟨pres, sets, keeps⟩ := ih _ _ h
      refine ⟨?_, ?_, ?_⟩
      · intro x c hx
        apply pres
        rw [lookupAlias_insertAlias]
        by_cases hxa : x = a
        · subst hxa
          rw [hl] at hx
          cases hx
        · rw [if_neg hxa]
          exact hx
      · intro x hx
        rcases List.mem_cons.mp hx with rfl | hx2
        · by_cases hmem : x ∈ rest
          · exact sets x hmem
          · rw [keeps x hmem, lookupAlias_insertAlias, if_pos rfl]
        · exact sets x hx2
      · intro x hx
        have hxa : x ≠ a := fun e => hx (e ▸ List.mem_cons_self a rest)
        have hxr : x ∉ rest := fun e => hx (List.mem_cons_of_mem a e)
        rw [keeps x hxr, lookupAlias_insertAlias, if_neg hxa]

theorem addAliases_error_spec (canonical : String) (aliases : List String) :
    ∀ (acc : List (String × String)) (msg : String),
    addAliases canonical acc aliases = .error msg →
    ∃ a existing, a ∈ aliases ∧ existing ≠ canonical ∧
      lookupAlias acc a = some existing ∧
      msg = aliasErrMsg a existing canonical := by
  induction aliases with
  | nil =>
    intro acc msg h
    simp [addAliases] at h
  | cons a rest ih =>
    intro acc msg h
    simp only [addAliases] at h
    cases hl : lookupAlias acc a with
    | some existing =>
      simp only [hl] at h
      by_cases hex : existing = canonical
      · rw [if_neg (by simp [hex])] at h
        obtain ⟨a2, ex2, hmem, hne, hlk, hmsg⟩ := ih _ _ h
        have ha2 : a2 ≠ a := by
          intro e
          subst e
          rw [lookupAlias_insertAlias, if_pos rfl] at hlk
          exact hne (by injection hlk with hh; exact hh.symm)
        rw [lookupAlias_insertAlias, if_neg ha2] at hlk
        exact ⟨a2, ex2, List.mem_cons_of_mem a hmem, hne, hlk, hmsg⟩
      · rw [if_pos hex] at h
        injection h with hmsg
        exact ⟨a, existing, List.mem_cons_self a rest, hex, hl, hmsg.symm⟩
    | none =>
      simp only [hl] at h
      obtain ⟨a2, ex2, hmem, hne, hlk, hmsg⟩ := ih _ _ h
      have ha2 : a2 ≠ a := by
        intro e
        subst e
        rw [lookupAlias_insertAlias, if_pos rfl] at hlk
        exact hne (by injection hlk with hh; exact hh.symm)
      rw [lookupAlias_insertAlias, if_neg ha2] at hlk
      exact ⟨a2, ex2, List.mem_cons_of_mem a hmem, hne, hlk, hmsg⟩

theorem buildAliasGo_ok_spec (cfg : List (String × List String)) :
    ∀ (acc m : List (String × String)),
    buildAliasGo acc cfg = .ok m →
    (∀ x c, lookupAlias acc x = some c → lookupAlias m x = some c) ∧
    (∀ p ∈ cfg, ∀ a ∈ p.2, lookupAlias m a = some p.1) := by
  induction cfg with
  | nil =>
    intro acc m h
    simp only [buildAliasGo, Except.ok.injEq] at h
    subst h
    exact ⟨fun x c hx => hx, fun p hp => by cases hp⟩
  | cons q rest ih =>
    intro acc m h
    obtain ⟨c0, als⟩ := q
    simp only [buildAliasGo] at h
    cases ha : addAliases c0 acc als with
    | error e =>
      simp only [ha] at h
      cases h
    | ok acc2 =>
      simp only [ha] at h
      obtain ⟨pres2, decl2⟩ := ih _ _ h
      obtain ⟨pres1, sets1, _keeps1⟩ := addAliases_ok_spec c0 als acc acc2 ha
      refine ⟨fun x c hx => pres2 x c (pres1 x c hx), ?_⟩
      intro p hp a hamem
      rcases List.mem_cons.mp hp with rfl | hp2
      · exact pres2 a c0 (sets1 a hamem)
      · exact decl2 p hp2 a hamem

theorem buildAliasGo_error_spec (cfg : List (String × List String)) :
    ∀ (acc : List (String × String)) (msg : String),
    buildAliasGo acc cfg = .error msg →
    ∃ a ex c, ex ≠ c ∧ msg = aliasErrMsg a ex c ∧
      (lookupAlias acc a = some ex ∨ ∃ p ∈ cfg, p.1 = ex ∧ a ∈ p.2) ∧
      (∃ p ∈ cfg, p.1 = c ∧ a ∈ p.2) := by
  induction cfg with
  | nil =>
    intro acc msg h
    simp [buildAliasGo] at h
  | cons q rest ih =>
    intro acc msg h
    obtain ⟨c0, als⟩ := q
    simp only [buildAliasGo] at h
    cases ha : addAliases c0 acc als with
    | error e =>
      simp only [ha] at h
      injection h with hmsg
      obtain ⟨a, existing, hmem, hne, hlk, hm⟩ := addAliases_error_spec c0 als acc e ha
      refine ⟨a, existing, c0, hne, by rw [← hmsg, hm], Or.inl hlk, ?_⟩
      exact ⟨(c0, als), List.mem_cons_self _ _, rfl, hmem⟩
    | ok acc2 =>
      simp only [ha] at h
      obtain ⟨a, ex, c, hne, hmsg, hsrc, hdecl⟩ := ih _ _ h
      obtain ⟨_pres1, sets1, keeps1⟩ := addAliases_ok_spec c0 als acc acc2 ha
      refine ⟨a, ex, c, hne, hmsg, ?_, ?_⟩
      · rcases hsrc with hlk | ⟨p, hp, hpe⟩
        · by_cases hmem : a ∈ als
          · have := sets1 a hmem
            rw [this] at hlk
            injection hlk with he
            exact Or.inr ⟨(c0, als), List.mem_cons_self _ _, he, hmem⟩
          · rw [keeps1 a hmem] at hlk
            exact Or.inl hlk
        · exact Or.inr ⟨p, List.mem_cons_of_mem _ hp, hpe⟩
      · obtain ⟨p, hp, hpe⟩ := hdecl
        exact ⟨p, List.mem_cons_of_mem _ hp, hpe⟩

/-- C8: the alias-flattening stage of config loading fails — with an error
message naming the offending alias and both conflicting canonical names —
exactly when some alias is declared under two distinct canonical names;
otherwise it succeeds with a flat alias→canonical map that contains every
declared alias (each alias looks up to its declared canonical). -/
theorem alias_map_validation (cfg : List (String × List String)) :
    (∀ m, build_alias_map cfg = .ok m →
      ∀ a c, declaredAlias cfg a c → lookupAlias m a = some c) ∧
    (∀ msg, build_alias_map cfg = .error msg →
      ∃ a ex c, ex ≠ c ∧ declaredAlias cfg a ex ∧ declaredAlias cfg a c ∧
        msg = aliasErrMsg a ex c) ∧
    ((∃ a c c2, c ≠ c2 ∧ declaredAlias cfg a c ∧ declaredAlias cfg a c2) ↔
      ∃ msg, build_alias_map cfg = .error msg) := by
  have hok : ∀ m, build_alias_map cfg = .ok m →
      ∀ a c, declaredAlias cfg a c → lookupAlias m a = some c := by
    intro m h a c hdecl
    obtain ⟨p, hp, hpc, hpa⟩ := hdecl
    have := (buildAliasGo_ok_spec cfg [] m h).2 p hp a hpa
    rw [this, hpc]
  have herr : ∀ msg, build_alias_map cfg = .error msg →
      ∃ a ex c, ex ≠ c ∧ declaredAlias cfg a ex ∧ declaredAlias cfg a c ∧
        msg = aliasErrMsg a ex c := by
    intro msg h
    obtain ⟨a, ex, c, hne, hmsg, hsrc, hdecl⟩ :=
      buildAliasGo_error_spec cfg [] msg h
    rcases hsrc with hlk | ⟨p, hp, hpe, hpa⟩
    · simp [lookupAlias] at hlk
    · exact ⟨a, ex, c, hne, ⟨p, hp, hpe, hpa⟩,
        by obtain ⟨p2, hp2, hpc, hpa2⟩ := hdecl; exact ⟨p2, hp2, hpc, hpa2⟩, hmsg⟩
  refine ⟨hok, herr, ?_, ?_⟩
  · rintro ⟨a, c, c2, hne, hd1, hd2⟩
    cases hres : build_alias_map cfg with
    | ok m =>
      exfalso
      have h1 := hok m hres a c hd1
      have h2 := hok m hres a c2 hd2
      rw [h1] at h2
      injection h2 with he
      exact hne he
    | error msg => exact ⟨msg, rfl⟩
  · rintro ⟨msg, hres⟩
    obtain ⟨a, ex, c, hne, hd1, hd2, _⟩ := herr msg hres
    exact ⟨a, ex, c, hne, hd1, hd2⟩

/-- Witness for C8: a conflicting config errors with a message naming the
alias and both canonicals; a clean config builds the full map. -/
theorem alias_map_validation_witness :
    (∀ m, build_alias_map [("javascript", ["js"]), ("java", ["js"])] = .ok m →
      ∀ a c, declaredAlias [("javascript", ["js"]), ("java", ["js"])] a c →
        lookupAlias m a = some c) ∧
    (∀ msg,
      build_alias_map [("javascript", ["js"]), ("java", ["js"])] = .error msg →
      ∃ a ex c, ex ≠ c ∧
        declaredAlias [("javascript", ["js"]), ("java", ["js"])] a ex ∧
        declaredAlias [("javascript", ["js"]), ("java", ["js"])] a c ∧
        msg = aliasErrMsg a ex c) ∧
    ((∃ a c c2, c ≠ c2 ∧
        declaredAlias [("javascript", ["js"]), ("java", ["js"])] a c ∧
        declaredAlias [("javascript", ["js"]), ("java", ["js"])] a c2) ↔
      ∃ msg, build_alias_map [("javascript", ["js"]), ("java", ["js"])] =
        .error msg) :=
  alias_map_validation [("javascript", ["js"]), ("java", ["js"])]

/-! ## C1: byte accounting of the region pipeline -/

theorem process_region_identity (buffer : List Nat) (r : CliRegion)
    (hesc : r.escape_chars = [])
    (hcol : column_for_byte buffer r.start_byte = 0)
    (hmin : min_leading_indent ((buffer.take r.end_byte).drop r.start_byte) = 0)
    (hutf : utf8Valid ((buffer.take r.end_byte).drop r.start_byte) = true) :
    process_region buffer r = some ((buffer.take r.end_byte).drop r.start_byte) := by
  unfold process_region
  rw [hesc]
  simp only [sort_escape_chars, List.insertionSort, List.isEmpty_nil, if_true,
    hutf, hcol, hmin]
  simp only [Nat.lt_irrefl, if_false, ite_self, Bool.false_and,
    Bool.and_eq_true, decide_eq_true_eq]
  rw [strip_trailing_append_trailing]
  simp [offset_lines_zero]

theorem foldl_splice_self (buffer : List Nat) (l : List (CliRegion × List Nat))
    (h : ∀ pr ∈ l, pr.1.start_byte ≤ pr.1.end_byte ∧
      pr.2 = (buffer.take pr.1.end_byte).drop pr.1.start_byte) :
    l.foldl (fun buf pr => spliceBytes buf pr.1.start_byte pr.1.end_byte pr.2)
      buffer = buffer := by
  induction l with
  | nil => rfl
  | cons pr rest ih =>
    have hp := h pr (by simp)
    simp only [List.foldl_cons]
    rw [hp.2, spliceBytes_self _ _ _ hp.1]
    exact ih (fun q hq => h q (by simp [hq]))

/-- C1 amended: the region pipeline of `format` is the identity when no
external formatter runs (and the recursive call is the identity), provided
every region has an empty escape-char set, starts at column 0 with a
fragment of zero minimal leading indent, has a well-formed byte range and a
valid-UTF-8 fragment.  (As stated over all inputs the claim is false: see
`format_pipeline_not_identity` — re-escaping alone can change bytes.) -/
theorem format_identity_on_plain_regions (buffer : List Nat)
    (regions : List CliRegion)
    (h : ∀ r ∈ regions, r.start_byte ≤ r.end_byte ∧
      r.end_byte ≤ buffer.length ∧
      r.escape_chars = [] ∧
      column_for_byte buffer r.start_byte = 0 ∧
      min_leading_indent ((buffer.take r.end_byte).drop r.start_byte) = 0 ∧
      utf8Valid ((buffer.take r.end_byte).drop r.start_byte) = true) :
    format_model buffer regions = some buffer := by
  unfold format_model
  have hmemS : ∀ r ∈ List.insertionSort regionDesc regions, r ∈ regions :=
    fun r hr => (List.perm_insertionSort regionDesc regions).mem_iff.mp hr
  have hmap : mapOptionList
      (fun r => (process_region buffer r).map (fun o => (r, o)))
      (List.insertionSort regionDesc regions) =
      some ((List.insertionSort regionDesc regions).map
        (fun r => (r, (buffer.take r.end_byte).drop r.start_byte))) := by
    apply mapOptionList_ok
    intro r hr
    obtain ⟨hb1, _hb2, hb3, hb4, hb5, hb6⟩ := h r (hmemS r hr)
    rw [process_region_identity buffer r hb3 hb4 hb5 hb6]
    rfl
  simp only [hmap]
  refine congrArg some (foldl_splice_self buffer _ ?_)
  intro pr hpr
  have hpr2 : pr ∈ (List.insertionSort regionDesc regions).map
      (fun r => (r, (buffer.take r.end_byte).drop r.start_byte)) :=
    (List.perm_insertionSort regionPairDesc _).mem_iff.mp hpr
  obtain ⟨r, hrmem, rfl⟩ := List.mem_map.mp hpr2
  exact ⟨(h r (hmemS r hrmem)).1, rfl⟩

/-- Witness for C1's amended theorem: a buffer with one plain full-width
region passes through unchanged. -/
theorem format_identity_on_plain_regions_witness :
    (∀ r ∈ [(⟨0, 3, []⟩ : CliRegion)], r.start_byte ≤ r.end_byte ∧
      r.end_byte ≤ [97, 10, 98].length ∧
      r.escape_chars = [] ∧
      column_for_byte [97, 10, 98] r.start_byte = 0 ∧
      min_leading_indent (([97, 10, 98].take r.end_byte).drop r.start_byte) = 0 ∧
      utf8Valid (([97, 10, 98].take r.end_byte).drop r.start_byte) = true) ∧
    format_model [97, 10, 98] [⟨0, 3, []⟩] = some [97, 10, 98] :=
  ⟨by decide, format_identity_on_plain_regions [97, 10, 98] [⟨0, 3, []⟩]
    (by decide)⟩

/-- C1 counterexample: with one extracted region carrying escape set
`{"b"}` over the two-byte buffer `\\a`, no formatter runs and yet the
pipeline returns `\\\\a` — the unescape/re-escape pair is not the identity
on a lone backslash, so `format` is not byte-for-byte the identity for
every input. -/
theorem format_pipeline_not_identity :
    format_model [92, 97] [⟨0, 2, [[98]]⟩] ≠ some [92, 97] ∧
    format_model [92, 97] [⟨0, 2, [[98]]⟩] = some [92, 92, 97] := by
  constructor
  · decide
  · decide

/-! ## C4: escape round trip -/

theorem unescapeGo_nil (S : List (List Nat)) (f : Nat) : unescapeGo S f [] = [] := by
  cases f <;> rfl

theorem escapeGo_nil (S : List (List Nat)) (f : Nat) : escapeGo S f [] = [] := by
  cases f <;> rfl

theorem unescapeGo_cons (S : List (List Nat)) (fuel b : Nat) (rest : List Nat) :
    unescapeGo S (fuel + 1) (b :: rest) =
      if b = 92 then
        if rest.head? = some 92 then 92 :: unescapeGo S fuel rest.tail
        else
          match findEscape S rest with
          | some e => e ++ unescapeGo S fuel (rest.drop e.length)
          | none => 92 :: unescapeGo S fuel rest
      else
        (b :: rest.take (utf8CharLen b - 1)) ++
          unescapeGo S fuel (rest.drop (utf8CharLen b - 1)) := rfl

theorem unescape_text_eq (S : List (List Nat)) (l : List Nat) :
    unescapeGo S l.length l = unescape_text S l := rfl

theorem unescapeGo_fuel (S : List (List Nat)) :
    ∀ (n : Nat) (l : List Nat) (f1 f2 : Nat), l.length ≤ n →
      l.length ≤ f1 → l.length ≤ f2 →
      unescapeGo S f1 l = unescapeGo S f2 l := by
  intro n
  induction n with
  | zero =>
    intro l f1 f2 hn _h1 _h2
    have hl : l = [] := List.length_eq_zero.mp (by omega)
    subst hl
    rw [unescapeGo_nil, unescapeGo_nil]
  | succ n ih =>
    intro l f1 f2 hn h1 h2
    cases l with
    | nil => rw [unescapeGo_nil, unescapeGo_nil]
    | cons b rest =>
      simp only [List.length_cons] at hn h1 h2
      cases f1 with
      | zero => omega
      | succ g1 =>
        cases f2 with
        | zero => omega
        | succ g2 =>
          simp only [unescapeGo]
          by_cases hb : b = 92
          · rw [if_pos hb, if_pos hb]
            by_cases hh : rest.head? = some 92
            · rw [if_pos hh, if_pos hh]
              have hlt : rest.tail.length = rest.length - 1 := List.length_tail rest
              congr 1
              exact ih rest.tail g1 g2 (by omega) (by omega) (by omega)
            · rw [if_neg hh, if_neg hh]
              cases hfind : findEscape S rest with
              | some e =>
                simp only [hfind]
                congr 1
                exact ih (rest.drop e.length) g1 g2
                  (by simp only [List.length_drop]; omega)
                  (by simp only [List.length_drop]; omega)
                  (by simp only [List.length_drop]; omega)
              | none =>
                simp only [hfind]
                congr 1
                exact ih rest g1 g2 (by omega) (by omega) (by omega)
          · rw [if_neg hb, if_neg hb]
            congr 1
            exact ih (rest.drop (utf8CharLen b - 1)) g1 g2
              (by simp only [List.length_drop]; omega)
              (by simp only [List.length_drop]; omega)
              (by simp only [List.length_drop]; omega)

theorem escapeGo_fuel (S : List (List Nat)) (hne : ∀ e ∈ S, e ≠ []) :
    ∀ (n : Nat) (l : List Nat) (f1 f2 : Nat), l.length ≤ n →
      l.length ≤ f1 → l.length ≤ f2 →
      escapeGo S f1 l = escapeGo S f2 l := by
  intro n
  induction n with
  | zero =>
    intro l f1 f2 hn _h1 _h2
    have hl : l = [] := List.length_eq_zero.mp (by omega)
    subst hl
    rw [escapeGo_nil, escapeGo_nil]
  | succ n ih =>
    intro l f1 f2 hn h1 h2
    cases l with
    | nil => rw [escapeGo_nil, escapeGo_nil]
    | cons b rest =>
      simp only [List.length_cons] at hn h1 h2
      cases f1 with
      | zero => omega
      | succ g1 =>
        cases f2 with
        | zero => omega
        | succ g2 =>
          simp only [escapeGo]
          by_cases hb : b = 92
          · rw [if_pos hb, if_pos hb]
            congr 2
            exact ih rest g1 g2 (by omega) (by omega) (by omega)
          · rw [if_neg hb, if_neg hb]
            cases hfind : findEscape S (b :: rest) with
            | some e =>
              simp only [hfind]
              have heS : e ∈ S := List.mem_of_find?_eq_some hfind
              have helen : 1 ≤ e.length := by
                cases he : e with
                | nil => exact absurd he (hne e heS)
                | cons x xs => simp
              congr 1
              exact ih ((b :: rest).drop e.length) g1 g2
                (by simp only [List.length_drop, List.length_cons]; omega)
                (by simp only [List.length_drop, List.length_cons]; omega)
                (by simp only [List.length_drop, List.length_cons]; omega)
            | none =>
              simp only [hfind]
              congr 1
              exact ih (rest.drop (utf8CharLen b - 1)) g1 g2
                (by simp only [List.length_drop]; omega)
                (by simp only [List.length_drop]; omega)
                (by simp only [List.length_drop]; omega)

theorem lexLe_total : ∀ a b : List Nat, lexLe a b = true ∨ lexLe b a = true := by
  intro a
  induction a with
  | nil => intro b; left; rfl
  | cons x xs ih =>
    intro b
    cases b with
    | nil => right; rfl
    | cons y ys =>
      by_cases hxy : x < y
      · left; simp [lexLe, hxy]
      · by_cases hyx : y < x
        · right; simp [lexLe, hyx]
        · rcases ih ys with h | h
          · left; simp [lexLe, hxy, hyx, h]
          · right; simp [lexLe, hxy, hyx, h]

theorem lexLe_trans : ∀ a b c : List Nat,
    lexLe a b = true → lexLe b c = true → lexLe a c = true := by
  intro a
  induction a with
  | nil => intro b c _h1 _h2; rfl
  | cons x xs ih =>
    intro b c h1 h2
    cases b with
    | nil => simp [lexLe] at h1
    | cons y ys =>
      cases c with
      | nil => simp [lexLe] at h2
      | cons z zs =>
        simp only [lexLe] at h1 h2 ⊢
        by_cases hxy : x < y
        · by_cases hyz : y < z
          · simp [show x < z from by omega]
          · by_cases hzy : z < y
            · simp [hyz, hzy] at h2
            · simp [show x < z from by omega]
        · by_cases hyx : y < x
          · simp [hxy, hyx] at h1
          · have hxey : x = y := by omega
            subst hxey
            simp only [Nat.lt_irrefl, if_false] at h1
            by_cases hxz : x < z
            · simp [hxz]
            · by_cases hzx : z < x
              · simp [hxz, hzx] at h2
              · simp only [hxz, hzx, if_false]
                exact ih ys zs h1 (by simpa [hxz, hzx] using h2)

instance : IsTotal (List Nat) escLt :=
  ⟨by
    intro a b
    unfold escLt
    rcases Nat.lt_trichotomy a.length b.length with h | h | h
    · exact Or.inr (Or.inl h)
    · rcases lexLe_total a b with hl | hl
      · exact Or.inl (Or.inr ⟨h, hl⟩)
      · exact Or.inr (Or.inr ⟨h.symm, hl⟩)
    · exact Or.inl (Or.inl h)⟩

instance : IsTrans (List Nat) escLt :=
  ⟨by
    intro a b c h1 h2
    unfold escLt at h1 h2 ⊢
    rcases h1 with h1 | ⟨h1e, h1l⟩ <;> rcases h2 with h2 | ⟨h2e, h2l⟩
    · exact Or.inl (by omega)
    · exact Or.inl (by omega)
    · exact Or.inl (by omega)
    · exact Or.inr ⟨by omega, lexLe_trans a b c h1l h2l⟩⟩

theorem sort_escape_chars_sorted (E : List (List Nat)) :
    (sort_escape_chars E).Pairwise (fun a b => b.length ≤ a.length) := by
  have hs := List.sorted_insertionSort escLt E
  exact hs.imp (fun h => by unfold escLt at h; omega)

theorem sort_escape_chars_mem (E : List (List Nat)) (e : List Nat) :
    e ∈ sort_escape_chars E ↔ e ∈ E :=
  (List.perm_insertionSort escLt E).mem_iff

theorem find?_eq_some_split {α : Type} (p : α → Bool) :
    ∀ (l : List α) (a : α), l.find? p = some a →
      p a = true ∧ ∃ l1 l2, l = l1 ++ a :: l2 ∧ ∀ x ∈ l1, p x = false := by
  intro l
  induction l with
  | nil => intro a h; simp at h
  | cons x xs ih =>
    intro a h
    by_cases hx : p x = true
    · rw [List.find?_cons_of_pos _ hx] at h
      injection h with h
      subst h
      exact ⟨hx, [], xs, rfl, by simp⟩
    · rw [List.find?_cons_of_neg _ (by simpa using hx)] at h
      obtain ⟨hpa, l1, l2, rfl, hall⟩ := ih a h
      refine ⟨hpa, x :: l1, l2, rfl, ?_⟩
      intro y hy
      rcases List.mem_cons.mp hy with rfl | hy2
      · simpa using hx
      · exact hall y hy2

theorem find?_append_first {α : Type} (p : α → Bool) (l1 : List α) (a : α)
    (l2 : List α) (h1 : ∀ x ∈ l1, p x = false) (h2 : p a = true) :
    (l1 ++ a :: l2).find? p = some a := by
  induction l1 with
  | nil => simp [List.find?_cons_of_pos _ h2]
  | cons x xs ih =>
    rw [List.cons_append, List.find?_cons_of_neg _ (by simp [h1 x (by simp)])]
    exact ih (fun y hy => h1 y (by simp [hy]))

theorem prefix_append_split {α : Type} {d a b : List α} (h : d <+: a ++ b) :
    d <+: a ∨ ∃ d2, d = a ++ d2 ∧ d2 <+: b := by
  rcases Nat.le_total d.length a.length with hl | hl
  · left
    rw [List.prefix_iff_eq_take] at h ⊢
    rw [h, List.take_append_eq_append_take]
    have h0 : d.length - a.length = 0 := by omega
    rw [h0]
    simp
  · right
    have hda : a <+: d := by
      rcases List.prefix_or_prefix_of_prefix (List.prefix_append a b) h with hp | hp
      · exact hp
      · exact (hp.eq_of_length (Nat.le_antisymm hp.length_le hl)) ▸ List.prefix_refl d
    refine ⟨d.drop a.length, ?_, ?_⟩
    · rw [List.prefix_iff_eq_take] at hda
      conv_lhs => rw [← List.take_append_drop a.length d, ← hda]
    · obtain ⟨t, ht⟩ := h
      refine ⟨t, ?_⟩
      have := congrArg (List.drop a.length) ht
      rw [List.drop_append_eq_append_drop, List.drop_append_eq_append_drop] at this
      simpa [Nat.sub_eq_zero_of_le hl, Nat.sub_eq_zero_of_le (le_refl a.length),
        List.drop_eq_nil_of_le (le_refl a.length)] using this

theorem prefix_append_mono {α : Type} (a : List α) {d2 b : List α}
    (h : d2 <+: b) : a ++ d2 <+: a ++ b := by
  obtain ⟨t, rfl⟩ := h
  exact ⟨t, by simp⟩

theorem prefix_escape_reflect (S : List (List Nat)) (hne : ∀ e ∈ S, e ≠ []) :
    ∀ (n : Nat) (B d : List Nat), B.length ≤ n → 92 ∉ d →
      d <+: escape_text S B → d <+: B := by
  intro n
  induction n with
  | zero =>
    intro B d hn _h92 hpre
    have hB : B = [] := List.length_eq_zero.mp (by omega)
    subst hB
    exact hpre
  | succ n ih =>
    intro B d hn h92 hpre
    cases B with
    | nil => exact hpre
    | cons b rest =>
      simp only [List.length_cons] at hn
      have hstep : escape_text S (b :: rest) =
          escapeGo S (rest.length + 1) (b :: rest) := rfl
      rw [hstep] at hpre
      simp only [escapeGo] at hpre
      by_cases hb : b = 92
      · rw [if_pos hb] at hpre
        cases d with
        | nil => exact List.nil_prefix
        | cons d0 dt =>
          obtain ⟨t, ht⟩ := hpre
          rw [List.cons_append] at ht
          injection ht with h1 _h2
          subst h1
          exact absurd (List.mem_cons_self 92 dt) h92
      · rw [if_neg hb] at hpre
        cases hfind : findEscape S (b :: rest) with
        | some e =>
          simp only [hfind] at hpre
          cases d with
          | nil => exact List.nil_prefix
          | cons d0 dt =>
            obtain ⟨t, ht⟩ := hpre
            rw [List.cons_append, List.cons_append] at ht
            injection ht with h1 _h2
            subst h1
            exact absurd (List.mem_cons_self 92 dt) h92
        | none =>
          simp only [hfind] at hpre
          have hfuel : escapeGo S rest.length (rest.drop (utf8CharLen b - 1)) =
              escape_text S (rest.drop (utf8CharLen b - 1)) :=
            escapeGo_fuel S hne rest.length _ _ _
              (by simp only [List.length_drop]; omega)
              (by simp only [List.length_drop]; omega)
              (le_refl _)
          rw [hfuel] at hpre
          have hchunk : (b :: rest.take (utf8CharLen b - 1)) ++
              rest.drop (utf8CharLen b - 1) = b :: rest := by
            rw [List.cons_append, List.take_append_drop]
          rcases prefix_append_split hpre with hc | ⟨d2, rfl, hd2⟩
          · exact hc.trans (hchunk ▸ List.prefix_append _ _)
          · have h92d2 : 92 ∉ d2 := fun hm => h92 (List.mem_append.mpr (Or.inr hm))
            have hd2B : d2 <+: rest.drop (utf8CharLen b - 1) :=
              ih (rest.drop (utf8CharLen b - 1)) d2
                (by simp only [List.length_drop]; omega) h92d2 hd2
            exact hchunk ▸ prefix_append_mono _ hd2B

theorem unescape_escape_of_sorted (S : List (List Nat))
    (hne : ∀ e ∈ S, e ≠ []) (hbs : ∀ e ∈ S, 92 ∉ e)
    (hsort : S.Pairwise (fun a b => b.length ≤ a.length)) :
    ∀ (n : Nat) (B : List Nat), B.length ≤ n →
      unescape_text S (escape_text S B) = B := by
  intro n
  induction n with
  | zero =>
    intro B hn
    have hB : B = [] := List.length_eq_zero.mp (by omega)
    subst hB
    rfl
  | succ n ih =>
    intro B hn
    cases B with
    | nil => rfl
    | cons b rest =>
      simp only [List.length_cons] at hn
      have hstep : escape_text S (b :: rest) =
          escapeGo S (rest.length + 1) (b :: rest) := rfl
      rw [hstep]
      simp only [escapeGo]
      by_cases hb : b = 92
      · rw [if_pos hb]
        subst hb
        have hX : escapeGo S rest.length rest = escape_text S rest := rfl
        rw [hX]
        have hun : unescape_text S (92 :: 92 :: escape_text S rest) =
            92 :: unescapeGo S ((escape_text S rest).length + 1)
              (escape_text S rest) := by
          show unescapeGo S ((escape_text S rest).length + 1 + 1)
              (92 :: 92 :: escape_text S rest) = _
          rw [unescapeGo_cons, if_pos rfl, List.head?_cons, if_pos rfl,
            List.tail_cons]
        rw [hun]
        rw [unescapeGo_fuel S (escape_text S rest).length (escape_text S rest)
          ((escape_text S rest).length + 1) (escape_text S rest).length
          (le_refl _) (by omega) (le_refl _)]
        rw [unescape_text_eq, ih rest (by omega)]
      · rw [if_neg hb]
        cases hfind : findEscape S (b :: rest) with
        | some e =>
          simp only [hfind]
          have hfind2 : S.find? (fun x => x.isPrefixOf (b :: rest)) = some e := hfind
          have heS : e ∈ S := List.mem_of_find?_eq_some hfind2
          have hp0 := List.find?_some hfind2
          simp only [] at hp0
          have hepre : e <+: b :: rest := List.isPrefixOf_iff_prefix.mp hp0
          have hene : e ≠ [] := hne e heS
          have he92 : 92 ∉ e := hbs e heS
          have helen : 1 ≤ e.length := by
            cases he : e with
            | nil => exact absurd he hene
            | cons x xs => simp
          have hBsplit : e ++ (b :: rest).drop e.length = b :: rest := by
            conv_rhs => rw [← List.take_append_drop e.length (b :: rest)]
            rw [← List.prefix_iff_eq_take.mp hepre]
          have hB2len : ((b :: rest).drop e.length).length ≤ rest.length := by
            simp only [List.length_drop, List.length_cons]
            omega
          have hfuel2 : escapeGo S rest.length ((b :: rest).drop e.length) =
              escape_text S ((b :: rest).drop e.length) :=
            escapeGo_fuel S hne rest.length _ _ _ hB2len hB2len (le_refl _)
          rw [hfuel2]
          obtain ⟨e0, et, rfl⟩ : ∃ e0 et, e = e0 :: et := by
            cases e with
            | nil => exact absurd rfl hene
            | cons e0 et => exact ⟨e0, et, rfl⟩
          have he0 : ¬e0 = 92 := fun h => he92 (h ▸ List.mem_cons_self e0 et)
          set X := escape_text S ((b :: rest).drop (e0 :: et).length) with hXdef
          rw [List.cons_append]
          have hun : unescape_text S (92 :: ((e0 :: et) ++ X)) =
              match findEscape S ((e0 :: et) ++ X) with
              | some e2 => e2 ++ unescapeGo S ((e0 :: et) ++ X).length
                  (((e0 :: et) ++ X).drop e2.length)
              | none => 92 :: unescapeGo S ((e0 :: et) ++ X).length
                  ((e0 :: et) ++ X) := by
            show unescapeGo S (((e0 :: et) ++ X).length + 1)
                (92 :: ((e0 :: et) ++ X)) = _
            rw [unescapeGo_cons, if_pos rfl, if_neg (by simp [he0])]
          rw [hun]
          have hcentral : findEscape S ((e0 :: et) ++ X) = some (e0 :: et) := by
            obtain ⟨_hpe, S1, S2, hSsplit, hS1⟩ :=
              find?_eq_some_split _ S (e0 :: et) hfind2
            unfold findEscape
            rw [hSsplit]
            apply find?_append_first
            · intro x hx
              by_contra hxb0
              have hxb : x.isPrefixOf ((e0 :: et) ++ X) = true := by
                revert hxb0
                cases x.isPrefixOf ((e0 :: et) ++ X) <;> simp
              have hxpre := List.isPrefixOf_iff_prefix.mp hxb
              have hxS : x ∈ S := by
                rw [hSsplit]
                exact List.mem_append.mpr (Or.inl hx)
              have hxlen : (e0 :: et).length ≤ x.length := by
                have hp := hsort
                rw [hSsplit] at hp
                have := (List.pairwise_append.mp hp).2.2 x hx (e0 :: et)
                  (List.mem_cons_self _ _)
                exact this
              have hxB : x.isPrefixOf (b :: rest) = false := hS1 x hx
              rcases Nat.eq_or_lt_of_le hxlen with heq | hlt
              · have hxe : x = e0 :: et := by
                  have h1 := List.prefix_iff_eq_take.mp hxpre
                  have h2 := List.prefix_iff_eq_take.mp
                    (List.prefix_append (e0 :: et) X)
                  rw [h1, ← heq, ← h2]
                rw [hxe] at hxB
                rw [List.isPrefixOf_iff_prefix.mpr hepre] at hxB
                cases hxB
              · rcases prefix_append_split hxpre with hxe | ⟨d, rfl, hdX⟩
                · have := hxe.length_le
                  omega
                · have hd92 : 92 ∉ d := fun hm =>
                    hbs _ hxS (List.mem_append.mpr (Or.inr hm))
                  have hdB2 : d <+: (b :: rest).drop (e0 :: et).length :=
                    prefix_escape_reflect S hne
                      ((b :: rest).drop (e0 :: et).length).length
                      ((b :: rest).drop (e0 :: et).length) d (le_refl _) hd92
                      (hXdef ▸ hdX)
                  have hxBpre : (e0 :: et) ++ d <+: b :: rest :=
                    hBsplit ▸ prefix_append_mono _ hdB2
                  rw [List.isPrefixOf_iff_prefix.mpr hxBpre] at hxB
                  cases hxB
            · exact List.isPrefixOf_iff_prefix.mpr (List.prefix_append _ _)
          simp only [hcentral]
          have hdrop : ((e0 :: et) ++ X).drop (e0 :: et).length = X := by
            rw [List.drop_append_eq_append_drop]
            simp
          rw [hdrop]
          rw [unescapeGo_fuel S X.length X ((e0 :: et) ++ X).length X.length
            (le_refl _) (by simp only [List.length_append]; omega) (le_refl _)]
          rw [unescape_text_eq, hXdef]
          rw [ih ((b :: rest).drop (e0 :: et).length) (by omega)]
          exact hBsplit
        | none =>
          simp only [hfind]
          have hfuelN : escapeGo S rest.length
              (rest.drop (utf8CharLen b - 1)) =
              escape_text S (rest.drop (utf8CharLen b - 1)) :=
            escapeGo_fuel S hne rest.length _ _ _
              (by simp only [List.length_drop]; omega)
              (by simp only [List.length_drop]; omega)
              (le_refl _)
          rw [hfuelN]
          set X := escape_text S (rest.drop (utf8CharLen b - 1)) with hXdef
          rw [List.cons_append]
          have hun : unescape_text S (b :: (rest.take (utf8CharLen b - 1) ++ X)) =
              (b :: (rest.take (utf8CharLen b - 1) ++ X).take (utf8CharLen b - 1)) ++
                unescapeGo S (rest.take (utf8CharLen b - 1) ++ X).length
                  ((rest.take (utf8CharLen b - 1) ++ X).drop (utf8CharLen b - 1)) := by
            show unescapeGo S ((rest.take (utf8CharLen b - 1) ++ X).length + 1)
                (b :: (rest.take (utf8CharLen b - 1) ++ X)) = _
            rw [unescapeGo_cons, if_neg hb]
          rw [hun]
          by_cases hlen : utf8CharLen b - 1 ≤ rest.length
          · have hlt : (rest.take (utf8CharLen b - 1)).length = utf8CharLen b - 1 := by
              simp only [List.length_take]
              omega
            have htake : (rest.take (utf8CharLen b - 1) ++ X).take (utf8CharLen b - 1) =
                rest.take (utf8CharLen b - 1) := by
              rw [List.take_append_eq_append_take, hlt, Nat.sub_self]
              simp [List.take_of_length_le (le_of_eq hlt)]
            have hdrop : (rest.take (utf8CharLen b - 1) ++ X).drop (utf8CharLen b - 1) =
                X := by
              rw [List.drop_append_eq_append_drop, hlt, Nat.sub_self]
              simp [List.drop_eq_nil_of_le (le_of_eq hlt)]
            rw [htake, hdrop]
            rw [unescapeGo_fuel S X.length X
              (rest.take (utf8CharLen b - 1) ++ X).length X.length (le_refl _)
              (by simp only [List.length_append]; omega) (le_refl _)]
            rw [unescape_text_eq, hXdef]
            rw [ih (rest.drop (utf8CharLen b - 1))
              (by simp only [List.length_drop]; omega)]
            rw [List.cons_append, List.take_append_drop]
          · have htr : rest.take (utf8CharLen b - 1) = rest :=
              List.take_of_length_le (by omega)
            have hdr : rest.drop (utf8CharLen b - 1) = [] :=
              List.drop_eq_nil_of_le (by omega)
            have hXnil : X = [] := by rw [hXdef, hdr]; rfl
            rw [hXnil, htr, List.append_nil]
            rw [List.take_of_length_le (by omega),
              List.drop_eq_nil_of_le (by omega), unescapeGo_nil, List.append_nil]

/-- C4 amended: for every byte string `B` and every escape set `E` whose
escape strings are nonempty and contain no backslash, unescaping the
escaped text restores `B`:
`unescape_text (sort_escape_chars E) (escape_text (sort_escape_chars E) B) = B`.
(Unrestricted, the claim is false: see `escape_roundtrip_counterexample` —
an escape string that extends another by backslashes desynchronizes the
unescape scan.) -/
theorem unescape_escape_roundtrip (B : List Nat) (E : List (List Nat))
    (hne : ∀ e ∈ E, e ≠ []) (hbs : ∀ e ∈ E, 92 ∉ e) :
    unescape_text (sort_escape_chars E)
      (escape_text (sort_escape_chars E) B) = B := by
  apply unescape_escape_of_sorted (sort_escape_chars E)
    (fun e he => hne e ((sort_escape_chars_mem E e).mp he))
    (fun e he => hbs e ((sort_escape_chars_mem E e).mp he))
    (sort_escape_chars_sorted E) B.length B (le_refl _)

/-- Witness for C4's amended theorem at `B = "a\\b"`, `E = auto ["b"]`. -/
theorem unescape_escape_roundtrip_witness :
    (∀ e ∈ [[98]], e ≠ ([] : List Nat)) ∧ (∀ e ∈ [[98]], 92 ∉ e) ∧
    unescape_text (sort_escape_chars [[98]])
      (escape_text (sort_escape_chars [[98]]) [97, 92, 98]) = [97, 92, 98] :=
  ⟨by decide, by decide,
    unescape_escape_roundtrip [97, 92, 98] [[98]] (by decide) (by decide)⟩

/-- C4 counterexample: with `E = auto ["a", "a\\\\"]` (the strings `a` and
`a` followed by two backslashes) and `B = "a\\q"`, escaping then unescaping
yields `"a\\\\q"` ≠ `B`: the longer escape, tried first by the unescape
scan, swallows the doubled backslash that `escape_text` produced for the
literal one.  So the round-trip law does not hold for every escape set. -/
theorem escape_roundtrip_counterexample :
    unescape_text (sort_escape_chars [[97], [97, 92, 92]])
        (escape_text (sort_escape_chars [[97], [97, 92, 92]]) [97, 92, 113]) ≠
      [97, 92, 113] ∧
    unescape_text (sort_escape_chars [[97], [97, 92, 92]])
        (escape_text (sort_escape_chars [[97], [97, 92, 92]]) [97, 92, 113]) =
      [97, 92, 92, 113] := by
  constructor
  · decide
  · decide

end Pruner
